import Mathlib

/-!
# HoboNickels `src/qt/walletmodel.cpp`: a shallow embedding

The wallet model sits between the wallet engine (`CWallet`, declared in
`wallet.h`) and the user interface.  The engine, the base58 address codec and
the user-interface callbacks are not part of `walletmodel.cpp`; they are taken
as parameters (`Engine`).  Every method of `WalletModel` is translated
statement by statement; a method returns the new state together with the
ordered list of engine calls it made and signals it emitted (`Event`).

The scope guard `CReserveKey` of `sendCoins`, declared in `wallet.h`, is
modelled from the spec (section 4.5 step 6).

`qint64` values are integers; every `qint64` addition of the source is
followed by `wrap64` (two's complement wrap-around).
-/

set_option autoImplicit false

namespace HoboNickels

/-! ## Machine integers -/

/-- Two's complement reduction of an integer to the `qint64` range. -/
def wrap64 (x : Int) : Int := (x + 2 ^ 63) % 2 ^ 64 - 2 ^ 63

/-- The value is representable as a `qint64`. -/
def inInt64 (x : Int) : Prop := -(2 ^ 63) ≤ x ∧ x < 2 ^ 63

instance (x : Int) : Decidable (inInt64 x) := by
  unfold inInt64; exact inferInstance

/-! ## Data declared outside `walletmodel.cpp` -/

/-- Script bytes (`CScript`). -/
abbrev CScript := List Nat

/-- A destination as declared in `script.h`: none, a key id or a script id. -/
inductive CTxDestination where
  | CNoDestination
  | CKeyID (id : Nat)
  | CScriptID (id : Nat)
  deriving DecidableEq, Repr

/-- Reference to an output of a transaction: `hash` and index `n`. -/
structure COutPoint where
  hash : Nat
  n : Nat
  deriving DecidableEq, Repr

/-- Transaction input; only `prevout` is read by the wallet model. -/
structure CTxIn where
  prevout : COutPoint
  deriving DecidableEq, Repr

/-- Transaction output. -/
structure CTxOut where
  nValue : Int
  scriptPubKey : CScript
  deriving DecidableEq, Repr

/-- Wallet transaction; only `vin` and `vout` are read by the wallet model. -/
structure CWalletTx where
  vin : List CTxIn
  vout : List CTxOut
  deriving DecidableEq, Repr

/-- An output of a wallet transaction: `tx` is the transaction pointed to. -/
structure COutput where
  tx : CWalletTx
  i : Nat
  nDepth : Int
  deriving DecidableEq, Repr

/-- Coin-control filter; the wallet model only passes it on to the engine. -/
structure CCoinControl where
  setSelected : List COutPoint
  deriving DecidableEq, Repr

/-- The wallet object.  `mapWallet`, `mapAddressBook` and
`fWalletUnlockMintOnly` are the public members `walletmodel.cpp` accesses
directly, the two `std::map`s as association lists in which a key occurs at
most once; `core` is everything else the engine keeps (keys, coin database). -/
structure CWallet (κ : Type) where
  core : κ
  mapWallet : List (Nat × CWalletTx)
  mapAddressBook : List (CTxDestination × String)
  fWalletUnlockMintOnly : Bool

/-- Result of `CWallet::CreateTransaction`: the return value, the transaction
and fee written through the reference arguments, and the wallet afterwards
(with the change key reserved), which is what `CommitTransaction` works on. -/
structure CreateResult (κ : Type) where
  fCreated : Bool
  wtx : CWalletTx
  nFeeRequired : Int
  wallet : CWallet κ

/-- Everything `walletmodel.cpp` calls but does not define: the address codec
of `base58.h`, script helpers, the `CWallet` member functions, the global
`nTransactionFee`, the fee callback of `ui_interface.h`, thread creation, and
the default of the `formint` argument declared in `walletmodel.h`. -/
structure Engine (κ : Type) where
  IsValid : String → Bool
  Get : String → CTxDestination
  ToString : CTxDestination → String
  SetDestination : CTxDestination → CScript
  ExtractDestination : CScript → Option CTxDestination
  GetHex : CWalletTx → String
  GetBalance : CWallet κ → Int
  GetStake : CWallet κ → Int
  GetUnconfirmedBalance : CWallet κ → Int
  GetImmatureBalance : CWallet κ → Int
  AvailableCoins : CWallet κ → Bool → Option CCoinControl → List COutput
  CreateTransaction : CWallet κ → List (CScript × Int) → Option CCoinControl → CreateResult κ
  CommitTransaction : CWallet κ → CWalletTx → Bool × CWallet κ
  SetAddressBookName : CWallet κ → CTxDestination → String → CWallet κ
  IsCrypted : CWallet κ → Bool
  IsLocked : CWallet κ → Bool
  Lock : CWallet κ → Bool × CWallet κ
  Unlock : CWallet κ → String → Bool × CWallet κ
  IsChange : CWallet κ → CTxOut → Bool
  IsMine : CWallet κ → CTxIn → Bool
  GetDepthInMainChain : CWallet κ → CWalletTx → Int
  NewThread : CWallet κ → Bool
  nTransactionFee : Int
  ThreadSafeAskFee : Int → Bool
  formintDefault : Bool

/-! ## Data of `walletmodel.cpp` -/

/-- One payment request. -/
structure SendCoinsRecipient where
  address : String
  amount : Int
  label : String
  deriving DecidableEq, Repr

/-- Status codes returned by `sendCoins`. -/
inductive StatusCode where
  | OK
  | InvalidAmount
  | InvalidAddress
  | AmountExceedsBalance
  | AmountWithFeeExceedsBalance
  | DuplicateAddress
  | TransactionCreationFailed
  | TransactionCommitFailed
  | Aborted
  deriving DecidableEq, Repr

/-- Return value of `sendCoins`: status, fee (default 0), hash (default empty). -/
structure SendCoinsReturn where
  status : StatusCode
  fee : Int
  hex : String
  deriving DecidableEq, Repr

/-- Encryption status of the wallet. -/
inductive EncryptionStatus where
  | Unencrypted
  | Locked
  | Unlocked
  deriving DecidableEq, Repr

/-- Engine calls made and signals emitted by a method, in program order. -/
inductive Event where
  | GetBalance
  | AvailableCoins
  | GetStake
  | GetUnconfirmedBalance
  | GetImmatureBalance
  | CreateTransaction (vecSend : List (CScript × Int))
  | ThreadSafeAskFee (fee : Int)
  | CommitTransaction
  | SetAddressBookName (dest : CTxDestination) (label : String)
  | Lock
  | Unlock
  | StopStaking
  | MilliSleep (ms : Nat)
  | RestartStakeMiner
  | NewThread
  | updateConfirmations
  | tableUpdateTransaction (hash : String) (status : Int)
  | balanceChanged (balance stake unconfirmed immature : Int)
  | totBalanceChanged (total : Int)
  | numTransactionsChanged (count : Int)
  | encryptionStatusChanged (status : EncryptionStatus)
  | requireUnlock
  deriving DecidableEq, Repr

/-- The members of `WalletModel` (constructor initialiser list). -/
structure WalletModel (κ : Type) where
  wallet : CWallet κ
  addressTableModel : Bool
  transactionTableModel : Bool
  cachedBalance : Int
  cachedStake : Int
  cachedUnconfirmedBalance : Int
  cachedImmatureBalance : Int
  cachedNumTransactions : Int
  cachedEncryptionStatus : EncryptionStatus
  cachedNumBlocks : Int

variable {κ : Type}

/-! ## `getBalance` and the `sendCoins` pipeline -/

/-- Sum of the values of the listed outputs, accumulated in a `qint64`
(`nBalance += out.tx->vout[out.i].nValue`).  An index outside `vout` is
undefined in the source; it contributes nothing here. -/
def sumCoins : List COutput → Int → Int
  | [], nBalance => nBalance
  | out :: rest, nBalance =>
    sumCoins rest (wrap64 (nBalance + ((out.tx.vout[out.i]?).map (fun o => o.nValue)).getD 0))

/-- Source `WalletModel::getBalance(coinControl)`. -/
def WalletModel.getBalance (E : Engine κ) (m : WalletModel κ) (coinControl : Option CCoinControl) :
    Int × List Event :=
  match coinControl with
  | some cc => (sumCoins (E.AvailableCoins m.wallet true (some cc)) 0, [Event.AvailableCoins])
  | none => (E.GetBalance m.wallet, [Event.GetBalance])

/-- Source `WalletModel::validateAddress`. -/
def validateAddress (E : Engine κ) (address : String) : Bool := E.IsValid address

/-- Insertion into a `QSet<QString>`, kept as a list without repetition. -/
def qsetInsert (s : List String) (a : String) : List String :=
  if a ∈ s then s else s ++ [a]

/-- The pre-check loop of `sendCoins` (lines 185-198): running `total` and
`setAddress`; the first failing recipient ends the call with its status. -/
def sendCoinsPrecheck (E : Engine κ) :
    List SendCoinsRecipient → Int → List String → Except StatusCode (Int × List String)
  | [], total, setAddress => .ok (total, setAddress)
  | rcp :: rest, total, setAddress =>
    if !validateAddress E rcp.address then .error StatusCode.InvalidAddress
    else
      let setAddress := qsetInsert setAddress rcp.address
      if rcp.amount ≤ 0 then .error StatusCode.InvalidAmount
      else sendCoinsPrecheck E rest (wrap64 (total + rcp.amount)) setAddress

/-- The address-book loop of `sendCoins` (lines 254-270). -/
def sendCoinsAddressBook (E : Engine κ) :
    List SendCoinsRecipient → CWallet κ → List Event → CWallet κ × List Event
  | [], wallet, tr => (wallet, tr)
  | rcp :: rest, wallet, tr =>
    let dest := E.Get rcp.address
    match wallet.mapAddressBook.lookup dest with
    | some l =>
      if l ≠ rcp.label then
        sendCoinsAddressBook E rest (E.SetAddressBookName wallet dest rcp.label)
          (tr ++ [Event.SetAddressBookName dest rcp.label])
      else sendCoinsAddressBook E rest wallet tr
    | none =>
      sendCoinsAddressBook E rest (E.SetAddressBookName wallet dest rcp.label)
        (tr ++ [Event.SetAddressBookName dest rcp.label])

/-- Modelled from the spec: the class `CReserveKey` behind `keyChange` of
line 230; `wallet.h` and `wallet.cpp`, which declare and define it, are not in
src/.  The build reserves the change key in it.  The spec, section 4.5 step 6,
says of leaving without commit: "no state mutated — the built-but-uncommitted
transaction and reserved change key are discarded", and section 7 (d) calls
it "a deliberate abort with no side effects".  Accordingly a `CReserveKey`
that holds a reserved key records the wallet the key was taken from, which is
the wallet its return leads back to. -/
structure CReserveKey (κ : Type) where
  reserved : Option (CWallet κ)

/-- Modelled from the spec: the constructor `CReserveKey keyChange(wallet)` of
line 230 (`wallet.h` is not in src/): no key is reserved yet. -/
def CReserveKey.init : CReserveKey κ := ⟨none⟩

/-- Modelled from the spec: what `CWallet::CreateTransaction` leaves in its
argument `keyChange` (`wallet.cpp` is not in src/): the change key, reserved
from the wallet `before` (spec section 4.5 step 6, "reserved change key"). -/
def CReserveKey.reserve (_keyChange : CReserveKey κ) (before : CWallet κ) : CReserveKey κ :=
  ⟨some before⟩

/-- Modelled from the spec: the destructor of `CReserveKey` (`wallet.cpp` is
not in src/), run on `wallet` when `sendCoins` returns from the block of
lines 217-251 before the commit: a reserved key is returned, which discards
the reservation ("no state mutated", spec section 4.5 step 6); with no key
reserved the wallet stays as it is. -/
def CReserveKey.destroy (keyChange : CReserveKey κ) (wallet : CWallet κ) : CWallet κ :=
  match keyChange.reserved with
  | some before => before
  | none => wallet

/-- The `vecSend` vector built by `sendCoins` (lines 221-227). -/
def sendCoinsVecSend (E : Engine κ) (recipients : List SendCoinsRecipient) :
    List (CScript × Int) :=
  recipients.map (fun rcp => (E.SetDestination (E.Get rcp.address), rcp.amount))

/-- Source `WalletModel::sendCoins`.  `keyChange` (line 230) is destroyed on
each return between the build and the commit; once `CommitTransaction` has
been handed `keyChange`, what becomes of the key is part of the wallet the
engine returns. -/
def WalletModel.sendCoins (E : Engine κ) (m : WalletModel κ)
    (recipients : List SendCoinsRecipient) (coinControl : Option CCoinControl) :
    SendCoinsReturn × WalletModel κ × List Event :=
  if recipients.isEmpty then (⟨StatusCode.OK, 0, ""⟩, m, [])
  else
    match sendCoinsPrecheck E recipients 0 [] with
    | .error st => (⟨st, 0, ""⟩, m, [])
    | .ok (total, setAddress) =>
      if recipients.length > setAddress.length then (⟨StatusCode.DuplicateAddress, 0, ""⟩, m, [])
      else
        let nBalance := (m.getBalance E coinControl).1
        let tr0 := (m.getBalance E coinControl).2
        if total > nBalance then (⟨StatusCode.AmountExceedsBalance, 0, ""⟩, m, tr0)
        else if wrap64 (total + E.nTransactionFee) > nBalance then
          (⟨StatusCode.AmountWithFeeExceedsBalance, E.nTransactionFee, ""⟩, m, tr0)
        else
          let vecSend := sendCoinsVecSend E recipients
          let keyChange0 : CReserveKey κ := CReserveKey.init
          let r := E.CreateTransaction m.wallet vecSend coinControl
          let keyChange := keyChange0.reserve m.wallet
          let tr1 := tr0 ++ [Event.CreateTransaction vecSend]
          if !r.fCreated then
            if wrap64 (total + r.nFeeRequired) > nBalance then
              (⟨StatusCode.AmountWithFeeExceedsBalance, r.nFeeRequired, ""⟩,
                { m with wallet := keyChange.destroy r.wallet }, tr1)
            else
              (⟨StatusCode.TransactionCreationFailed, 0, ""⟩,
                { m with wallet := keyChange.destroy r.wallet }, tr1)
          else if !E.ThreadSafeAskFee r.nFeeRequired then
            (⟨StatusCode.Aborted, 0, ""⟩, { m with wallet := keyChange.destroy r.wallet },
              tr1 ++ [Event.ThreadSafeAskFee r.nFeeRequired])
          else
            let c := E.CommitTransaction r.wallet r.wtx
            let tr2 := tr1 ++ [Event.ThreadSafeAskFee r.nFeeRequired, Event.CommitTransaction]
            if !c.1 then (⟨StatusCode.TransactionCommitFailed, 0, ""⟩, { m with wallet := c.2 }, tr2)
            else
              let ab := sendCoinsAddressBook E recipients c.2 tr2
              (⟨StatusCode.OK, 0, E.GetHex r.wtx⟩, { m with wallet := ab.1 }, ab.2)

/-! ## Cached balances: `checkBalanceChanged`, `pollBalanceChanged`,
`updateTransaction` -/

/-- Source `WalletModel::getTotBalance`: the balances of all wallets of the
wallet manager (the global `pWalletManager`), added in a `qint64`. -/
def getTotBalance (E : Engine κ) : List (String × CWallet κ) → Int × List Event →
    Int × List Event
  | [], acc => acc
  | item :: rest, acc =>
    getTotBalance E rest (wrap64 (acc.1 + E.GetBalance item.2), acc.2 ++ [Event.GetBalance])

/-- Source `WalletModel::getNumTransactions`: `mapWallet.size()`. -/
def WalletModel.getNumTransactions (m : WalletModel κ) : Int := m.wallet.mapWallet.length

/-- Source `WalletModel::checkBalanceChanged`. -/
def WalletModel.checkBalanceChanged (E : Engine κ) (pWalletManager : List (String × CWallet κ))
    (m : WalletModel κ) : WalletModel κ × List Event :=
  let newBalance := (m.getBalance E none).1
  let newTotBalance := (getTotBalance E pWalletManager (0, [])).1
  let newStake := E.GetStake m.wallet
  let newUnconfirmedBalance := E.GetUnconfirmedBalance m.wallet
  let newImmatureBalance := E.GetImmatureBalance m.wallet
  let tr := (m.getBalance E none).2 ++ (getTotBalance E pWalletManager (0, [])).2 ++
    [Event.GetStake, Event.GetUnconfirmedBalance, Event.GetImmatureBalance]
  if m.cachedBalance ≠ newBalance ∨ m.cachedStake ≠ newStake ∨
      m.cachedUnconfirmedBalance ≠ newUnconfirmedBalance ∨
      m.cachedImmatureBalance ≠ newImmatureBalance then
    ({ m with
        cachedBalance := newBalance
        cachedStake := newStake
        cachedUnconfirmedBalance := newUnconfirmedBalance
        cachedImmatureBalance := newImmatureBalance },
      tr ++ [Event.balanceChanged newBalance newStake newUnconfirmedBalance newImmatureBalance,
             Event.totBalanceChanged newTotBalance])
  else (m, tr)

/-- Source `WalletModel::pollBalanceChanged`.  `lockMain` and `lockWallet` are
the outcomes of the two `TRY_LOCK`s (the second is consulted only when the
first succeeded); `nBestHeight` is the global chain height. -/
def WalletModel.pollBalanceChanged (E : Engine κ) (pWalletManager : List (String × CWallet κ))
    (lockMain lockWallet : Bool) (nBestHeight : Int) (m : WalletModel κ) :
    WalletModel κ × List Event :=
  if !lockMain then (m, [])
  else if !lockWallet then (m, [])
  else if nBestHeight ≠ m.cachedNumBlocks then
    let r := ({ m with cachedNumBlocks := nBestHeight }).checkBalanceChanged E pWalletManager
    if r.1.transactionTableModel then (r.1, r.2 ++ [Event.updateConfirmations]) else r
  else (m, [])

/-- Source `WalletModel::updateTransaction`. -/
def WalletModel.updateTransaction (E : Engine κ) (pWalletManager : List (String × CWallet κ))
    (m : WalletModel κ) (hash : String) (status : Int) : WalletModel κ × List Event :=
  let tr0 := if m.transactionTableModel then [Event.tableUpdateTransaction hash status] else []
  let r := m.checkBalanceChanged E pWalletManager
  let newNumTransactions := r.1.getNumTransactions
  if r.1.cachedNumTransactions ≠ newNumTransactions then
    ({ r.1 with cachedNumTransactions := newNumTransactions },
      tr0 ++ r.2 ++ [Event.numTransactionsChanged newNumTransactions])
  else (r.1, tr0 ++ r.2)

/-- The event is an emitted signal (as opposed to an engine call). -/
def Event.isSignal : Event → Bool
  | Event.balanceChanged _ _ _ _ => true
  | Event.totBalanceChanged _ => true
  | Event.numTransactionsChanged _ => true
  | Event.encryptionStatusChanged _ => true
  | Event.requireUnlock => true
  | _ => false

/-- The event is a `balanceChanged` signal. -/
def Event.isBalanceChanged : Event → Bool
  | Event.balanceChanged _ _ _ _ => true
  | _ => false

/-- The signals emitted in a trace. -/
def signals (tr : List Event) : List Event := tr.filter Event.isSignal

/-! ## Encryption status and `UnlockContext` -/

/-- Source `WalletModel::getEncryptionStatus`. -/
def WalletModel.getEncryptionStatus (E : Engine κ) (m : WalletModel κ) : EncryptionStatus :=
  if !E.IsCrypted m.wallet then EncryptionStatus.Unencrypted
  else if E.IsLocked m.wallet then EncryptionStatus.Locked
  else EncryptionStatus.Unlocked

/-- Source `WalletModel::setWalletLocked`.  Setting the global `fStopStaking`,
the sleep and the stake-miner restart appear in the trace. -/
def WalletModel.setWalletLocked (E : Engine κ) (m : WalletModel κ) (locked : Bool)
    (passPhrase : String) (formint : Bool) : Bool × WalletModel κ × List Event :=
  if locked then
    if formint then
      let rc := E.Lock m.wallet
      (rc.1, { m with wallet := rc.2 },
        [Event.Lock, Event.StopStaking, Event.MilliSleep 1000, Event.RestartStakeMiner])
    else
      let rc := E.Lock m.wallet
      (rc.1, { m with wallet := rc.2 }, [Event.Lock])
  else
    let rc := E.Unlock m.wallet passPhrase
    if rc.1 && formint then
      if !E.NewThread rc.2 then (rc.1, { m with wallet := rc.2 }, [Event.Unlock, Event.NewThread])
      else
        (rc.1, { m with wallet := { rc.2 with fWalletUnlockMintOnly := true } },
          [Event.Unlock, Event.NewThread])
    else (rc.1, { m with wallet := rc.2 }, [Event.Unlock])

/-- The members `valid` and `relock` of `WalletModel::UnlockContext`; the
`wallet` member points to the model the context was requested from. -/
structure UnlockContext where
  valid : Bool
  relock : Bool
  deriving DecidableEq, Repr

/-- Source `UnlockContext::~UnlockContext`, run on the model it points to;
`setWalletLocked(true)` takes the defaults of its other arguments. -/
def UnlockContext.destroy (E : Engine κ) (ctx : UnlockContext) (m : WalletModel κ) :
    WalletModel κ × List Event :=
  if ctx.valid && ctx.relock then
    ((m.setWalletLocked E true "" E.formintDefault).2.1,
     (m.setWalletLocked E true "" E.formintDefault).2.2)
  else (m, [])

/-- Source `UnlockContext::CopyFrom`: returns the destination and the source
after `*this = rhs; rhs.relock = false;`. -/
def UnlockContext.CopyFrom (_this rhs : UnlockContext) : UnlockContext × UnlockContext :=
  (rhs, { rhs with relock := false })

/-- Source `WalletModel::requestUnlock`.  `onRequireUnlock` is whatever is
connected to the signal `requireUnlock` (the passphrase dialog): it runs to
completion inside `emit requireUnlock()` and leaves the model in a new state;
the calls it makes are not part of the trace.  Returns the context, the model
afterwards and the trace. -/
def WalletModel.requestUnlock (E : Engine κ) (onRequireUnlock : WalletModel κ → WalletModel κ)
    (m : WalletModel κ) : UnlockContext × WalletModel κ × List Event :=
  let was_locked0 := decide (m.getEncryptionStatus E = EncryptionStatus.Locked)
  let forced := !was_locked0 && m.wallet.fWalletUnlockMintOnly
  let m1 := if forced then (m.setWalletLocked E true "" E.formintDefault).2.1 else m
  let tr1 := if forced then (m.setWalletLocked E true "" E.formintDefault).2.2 else []
  let was_locked :=
    if forced then decide (m1.getEncryptionStatus E = EncryptionStatus.Locked) else was_locked0
  let m2 := if was_locked then onRequireUnlock m1 else m1
  let tr2 := if was_locked then tr1 ++ [Event.requireUnlock] else tr1
  let valid := decide (m2.getEncryptionStatus E ≠ EncryptionStatus.Locked)
  let tr3 :=
    if !valid && m2.wallet.fWalletUnlockMintOnly then
      tr2 ++ [Event.StopStaking, Event.MilliSleep 1000, Event.RestartStakeMiner]
    else tr2
  (⟨valid, was_locked && !m2.wallet.fWalletUnlockMintOnly⟩, m2, tr3)

/-- The model on which `requestUnlock` settles `was_locked`: the model at
entry, or, when the wallet was not locked and in staking-only mode, the model
left by the forced `setWalletLocked(true)`. -/
def requestUnlockEntry (E : Engine κ) (m : WalletModel κ) : WalletModel κ :=
  if m.getEncryptionStatus E ≠ EncryptionStatus.Locked ∧ m.wallet.fWalletUnlockMintOnly = true then
    (m.setWalletLocked E true "" E.formintDefault).2.1
  else m

/-- The value of `was_locked` when the unlock request is decided: the
encryption status read on `requestUnlockEntry` is `Locked`. -/
def requestUnlockWasLocked (E : Engine κ) (m : WalletModel κ) : Bool :=
  decide ((requestUnlockEntry E m).getEncryptionStatus E = EncryptionStatus.Locked)

/-! ## `listCoins` -/

/-- Why a run of the change walk gives no output: the step budget of the
model ran out, or an output index lies outside `vout` (undefined in the
source). -/
inductive WalkError where
  | outOfFuel
  | badIndex
  deriving DecidableEq, Repr

/-- The `while` loop of `listCoins` (lines 637-641), at most `fuel`
evaluations of its condition. -/
def WalletModel.resolveChange (E : Engine κ) (m : WalletModel κ) :
    Nat → COutput → Except WalkError COutput
  | 0, _ => .error WalkError.outOfFuel
  | fuel + 1, cout =>
    match cout.tx.vout[cout.i]? with
    | none => .error WalkError.badIndex
    | some txout =>
      if E.IsChange m.wallet txout then
        match cout.tx.vin with
        | [] => .ok cout
        | vin0 :: _ =>
          if E.IsMine m.wallet vin0 then
            match m.wallet.mapWallet.lookup vin0.prevout.hash with
            | none => .ok cout
            | some prev => WalletModel.resolveChange E m fuel ⟨prev, vin0.prevout.n, 0⟩
          else .ok cout
      else .ok cout

/-- The map `mapCoins[key].push_back(out)`: a `std::map` from address string
to vector, kept as an association list (the order of the keys is not
modelled). -/
def mapPushBack : List (String × List COutput) → String → COutput →
    List (String × List COutput)
  | [], key, out => [(key, [out])]
  | (k, v) :: rest, key, out =>
    if k = key then (k, v ++ [out]) :: rest else (k, v) :: mapPushBack rest key out

/-- The vector stored under a key (empty when the key is absent). -/
def mapFind (mapCoins : List (String × List COutput)) (key : String) : List COutput :=
  (mapCoins.lookup key).getD []

/-- The loop adding locked coins (lines 624-631). -/
def addLockedCoins (E : Engine κ) (m : WalletModel κ) :
    List COutPoint → List COutput → List COutput
  | [], vCoins => vCoins
  | outpoint :: rest, vCoins =>
    match m.wallet.mapWallet.lookup outpoint.hash with
    | none => addLockedCoins E m rest vCoins
    | some tx =>
      let nDepth := E.GetDepthInMainChain m.wallet tx
      if nDepth < 0 then addLockedCoins E m rest vCoins
      else addLockedCoins E m rest (vCoins ++ [⟨tx, outpoint.n, nDepth⟩])

/-- The grouping loop of `listCoins` (lines 633-646). -/
def WalletModel.listCoinsLoop (E : Engine κ) (m : WalletModel κ) (fuel : Nat) :
    List COutput → List (String × List COutput) → Except WalkError (List (String × List COutput))
  | [], mapCoins => .ok mapCoins
  | out :: rest, mapCoins =>
    match m.resolveChange E fuel out with
    | .error e => .error e
    | .ok cout =>
      match cout.tx.vout[cout.i]? with
      | none => .error WalkError.badIndex
      | some txout =>
        match E.ExtractDestination txout.scriptPubKey with
        | none => WalletModel.listCoinsLoop E m fuel rest mapCoins
        | some address =>
          WalletModel.listCoinsLoop E m fuel rest (mapPushBack mapCoins (E.ToString address) out)

/-- The coins `listCoins` groups: `AvailableCoins` (default arguments) followed
by the locked coins, of which the source lists none (`vLockedCoins` is never
filled). -/
def WalletModel.listCoinsInput (E : Engine κ) (m : WalletModel κ) : List COutput :=
  addLockedCoins E m [] (E.AvailableCoins m.wallet true none)

/-- Source `WalletModel::listCoins`; `mapCoins` is the map passed by
reference. -/
def WalletModel.listCoins (E : Engine κ) (m : WalletModel κ) (fuel : Nat)
    (mapCoins : List (String × List COutput)) :
    Except WalkError (List (String × List COutput)) :=
  m.listCoinsLoop E fuel (m.listCoinsInput E) mapCoins

/-- The output `o` is a change output whose transaction has a wallet-owned
first input that references `prev` in a transaction of the wallet record. -/
def changeLink (E : Engine κ) (w : CWallet κ) (o prev : COutput) : Bool :=
  match o.tx.vout[o.i]?, o.tx.vin with
  | some txout, vin0 :: _ =>
    E.IsChange w txout && E.IsMine w vin0 &&
      (match w.mapWallet.lookup vin0.prevout.hash with
       | some tx => decide (prev = ⟨tx, vin0.prevout.n, 0⟩)
       | none => false)
  | _, _ => false

/-- A change chain `On, ..., O1` (head first): every output but the last is
linked to the next, and the last is not a change output and pays to `A`. -/
def changeChain (E : Engine κ) (w : CWallet κ) (A : CTxDestination) : List COutput → Bool
  | [] => false
  | [o1] =>
    match o1.tx.vout[o1.i]? with
    | some txout =>
      !E.IsChange w txout && decide (E.ExtractDestination txout.scriptPubKey = some A)
    | none => false
  | o :: prev :: rest => changeLink E w o prev && changeChain E w A (prev :: rest)

/-- What one pass through the `while` loop of `listCoins` does with the
current output: leave the loop, read outside `vout`, or go on with the output
the first input references. -/
inductive WalkStep where
  | stop
  | bad
  | next (cout : COutput)
  deriving DecidableEq, Repr

/-- One evaluation of the loop condition and body (lines 637-641). -/
def WalletModel.walkStep (E : Engine κ) (m : WalletModel κ) (cout : COutput) : WalkStep :=
  match cout.tx.vout[cout.i]? with
  | none => WalkStep.bad
  | some txout =>
    if E.IsChange m.wallet txout then
      match cout.tx.vin with
      | [] => WalkStep.stop
      | vin0 :: _ =>
        if E.IsMine m.wallet vin0 then
          match m.wallet.mapWallet.lookup vin0.prevout.hash with
          | none => WalkStep.stop
          | some prev => WalkStep.next ⟨prev, vin0.prevout.n, 0⟩
        else WalkStep.stop
    else WalkStep.stop

/-- The output reached after `n` passes through the loop, when the walk gets
that far. -/
def WalletModel.walkIter (E : Engine κ) (m : WalletModel κ) : Nat → COutput → Option COutput
  | 0, cout => some cout
  | n + 1, cout =>
    match m.walkStep E cout with
    | WalkStep.next c => WalletModel.walkIter E m n c
    | _ => none

/-- The outputs entered by the first `n` passes through the loop. -/
def WalletModel.walkTrail (E : Engine κ) (m : WalletModel κ) : Nat → COutput → List COutput
  | 0, _ => []
  | n + 1, cout =>
    match m.walkStep E cout with
    | WalkStep.next c => c :: WalletModel.walkTrail E m n c
    | _ => []

/-- The loop leaves at `r`: its output is inside `vout` and is not change, or
its transaction has no input, or a first input that is not wallet-owned, or a
first input whose transaction is not in the wallet record. -/
def walkEndsAt (E : Engine κ) (w : CWallet κ) (r : COutput) : Prop :=
  ∃ txout, r.tx.vout[r.i]? = some txout ∧
    (E.IsChange w txout = false ∨ r.tx.vin = [] ∨
      ∃ vin0 rest, r.tx.vin = vin0 :: rest ∧
        (E.IsMine w vin0 = false ∨ w.mapWallet.lookup vin0.prevout.hash = none))

/-! ## Reference quantities used in the statements -/

/-- Arithmetic sum of the requested amounts. -/
def amountSum (recipients : List SendCoinsRecipient) : Int :=
  (recipients.map (fun rcp => rcp.amount)).sum

/-- A recipient passes the per-recipient checks of the pre-check loop. -/
def recipientOk (E : Engine κ) (rcp : SendCoinsRecipient) : Prop :=
  E.IsValid rcp.address = true ∧ 0 < rcp.amount

/-- The value of `total` after the pre-check loop: the amounts added one by
one in a `qint64`. -/
def runningTotal (recipients : List SendCoinsRecipient) : Int :=
  recipients.foldl (fun t rcp => wrap64 (t + rcp.amount)) 0

/-- A fee: a non-negative `qint64`. -/
def isFee (x : Int) : Prop := 0 ≤ x ∧ x < 2 ^ 63

instance (x : Int) : Decidable (isFee x) := by
  unfold isFee; exact inferInstance

/-- The values the engine hands to one `sendCoins` call are of their types:
the flat fee and the required fee reported by the build are fees, the wallet
balance is a `qint64`. -/
def callValuesTyped (E : Engine κ) (m : WalletModel κ) (rs : List SendCoinsRecipient)
    (cc : Option CCoinControl) : Prop :=
  isFee E.nTransactionFee ∧ inInt64 (E.GetBalance m.wallet) ∧
    isFee (E.CreateTransaction m.wallet (sendCoinsVecSend E rs) cc).nFeeRequired

instance (E : Engine κ) (m : WalletModel κ) (rs : List SendCoinsRecipient)
    (cc : Option CCoinControl) : Decidable (callValuesTyped E m rs cc) := by
  unfold callValuesTyped; exact inferInstance

/-- Lines 205-272 of `sendCoins` as a function of the value of `total`; used
to state what remains of a call once the pre-check is over. -/
def sendCoinsTail (E : Engine κ) (m : WalletModel κ) (recipients : List SendCoinsRecipient)
    (coinControl : Option CCoinControl) (total : Int) :
    SendCoinsReturn × WalletModel κ × List Event :=
  if total > (m.getBalance E coinControl).1 then
    (⟨StatusCode.AmountExceedsBalance, 0, ""⟩, m, (m.getBalance E coinControl).2)
  else if wrap64 (total + E.nTransactionFee) > (m.getBalance E coinControl).1 then
    (⟨StatusCode.AmountWithFeeExceedsBalance, E.nTransactionFee, ""⟩, m,
      (m.getBalance E coinControl).2)
  else
    let r := E.CreateTransaction m.wallet (sendCoinsVecSend E recipients) coinControl
    let keyChange := (CReserveKey.init : CReserveKey κ).reserve m.wallet
    let tr1 := (m.getBalance E coinControl).2 ++
      [Event.CreateTransaction (sendCoinsVecSend E recipients)]
    if !r.fCreated then
      if wrap64 (total + r.nFeeRequired) > (m.getBalance E coinControl).1 then
        (⟨StatusCode.AmountWithFeeExceedsBalance, r.nFeeRequired, ""⟩,
          { m with wallet := keyChange.destroy r.wallet }, tr1)
      else
        (⟨StatusCode.TransactionCreationFailed, 0, ""⟩,
          { m with wallet := keyChange.destroy r.wallet }, tr1)
    else if !E.ThreadSafeAskFee r.nFeeRequired then
      (⟨StatusCode.Aborted, 0, ""⟩, { m with wallet := keyChange.destroy r.wallet },
        tr1 ++ [Event.ThreadSafeAskFee r.nFeeRequired])
    else
      let c := E.CommitTransaction r.wallet r.wtx
      let tr2 := tr1 ++ [Event.ThreadSafeAskFee r.nFeeRequired, Event.CommitTransaction]
      if !c.1 then (⟨StatusCode.TransactionCommitFailed, 0, ""⟩, { m with wallet := c.2 }, tr2)
      else
        let ab := sendCoinsAddressBook E recipients c.2 tr2
        (⟨StatusCode.OK, 0, E.GetHex r.wtx⟩, { m with wallet := ab.1 }, ab.2)

/-! ## Demo engine for concrete evaluations -/

/-- Engine-internal state of the demo engine. -/
structure DemoCore where
  balance : Int
  stake : Int
  unconfirmed : Int
  immature : Int
  crypted : Bool
  locked : Bool
  coins : List COutput
  buildOk : Bool
  buildFee : Int
  deriving DecidableEq, Repr

/-- A small engine: an address is valid when it is not empty, a key id is the
length of the address string, a script starts with the key id it pays to and
a change script has two entries. -/
def demoEngine (askFee : Bool) : Engine DemoCore where
  IsValid := fun s => decide (s.length ≠ 0)
  Get := fun s => CTxDestination.CKeyID s.length
  ToString := fun d =>
    match d with
    | CTxDestination.CKeyID n => String.mk (List.replicate n 'H')
    | _ => ""
  SetDestination := fun d =>
    match d with
    | CTxDestination.CKeyID n => [n]
    | _ => []
  ExtractDestination := fun s =>
    match s with
    | n :: _ => some (CTxDestination.CKeyID n)
    | [] => none
  GetHex := fun _ => "00"
  GetBalance := fun w => w.core.balance
  GetStake := fun w => w.core.stake
  GetUnconfirmedBalance := fun w => w.core.unconfirmed
  GetImmatureBalance := fun w => w.core.immature
  AvailableCoins := fun w _ _ => w.core.coins
  CreateTransaction := fun w vecSend _ =>
    ⟨w.core.buildOk, ⟨[], vecSend.map (fun p => ⟨p.2, p.1⟩)⟩, w.core.buildFee, w⟩
  CommitTransaction := fun w wtx =>
    (true, { w with
      core := { w.core with balance := w.core.balance - (wtx.vout.map (fun o => o.nValue)).sum - w.core.buildFee }
      mapWallet := w.mapWallet ++ [(w.mapWallet.length + 1, wtx)] })
  SetAddressBookName := fun w d l => { w with mapAddressBook := (d, l) :: w.mapAddressBook }
  IsCrypted := fun w => w.core.crypted
  IsLocked := fun w => w.core.crypted && w.core.locked
  Lock := fun w => (w.core.crypted, { w with core := { w.core with locked := w.core.crypted } })
  Unlock := fun w _ => (w.core.crypted, { w with core := { w.core with locked := false } })
  IsChange := fun _ o => decide (o.scriptPubKey.length = 2)
  IsMine := fun w i => (w.mapWallet.lookup i.prevout.hash).isSome
  GetDepthInMainChain := fun _ _ => 1
  NewThread := fun _ => true
  nTransactionFee := 1
  ThreadSafeAskFee := fun _ => askFee
  formintDefault := false

/-- Demo wallet with the given spendable balance. -/
def demoWallet (balance : Int) : CWallet DemoCore :=
  { core := ⟨balance, 0, 0, 0, true, false, [], true, 1⟩
    mapWallet := []
    mapAddressBook := []
    fWalletUnlockMintOnly := false }

/-- Demo wallet whose transaction builds fail, reporting the given fee. -/
def demoWalletFailing (balance fee : Int) : CWallet DemoCore :=
  { core := ⟨balance, 0, 0, 0, true, false, [], false, fee⟩
    mapWallet := []
    mapAddressBook := []
    fWalletUnlockMintOnly := false }

/-- Demo wallet with all balances zero and one recorded transaction. -/
def demoWalletOneTx : CWallet DemoCore :=
  { core := ⟨0, 0, 0, 0, true, false, [], true, 1⟩
    mapWallet := [(1, ⟨[], [⟨0, [7]⟩]⟩)]
    mapAddressBook := []
    fWalletUnlockMintOnly := false }

/-- Transaction 1 of the demo chain: one output paying to key 7. -/
def demoTx1 : CWalletTx := ⟨[], [⟨50, [7]⟩]⟩

/-- Transaction 2 of the demo chain: spends output 0 of transaction 1 into a
change output. -/
def demoTx2 : CWalletTx := ⟨[⟨⟨1, 0⟩⟩], [⟨40, [8, 0]⟩]⟩

/-- Transaction 3 of the demo chain: spends output 0 of transaction 2 into a
change output. -/
def demoTx3 : CWalletTx := ⟨[⟨⟨2, 0⟩⟩], [⟨30, [9, 0]⟩]⟩

/-- Transaction 4: an unrelated payment to key 5. -/
def demoTx4 : CWalletTx := ⟨[], [⟨20, [5]⟩]⟩

/-- Demo wallet recording the chain; the available coins are the change
output of transaction 3 and the output of transaction 4. -/
def demoChainWallet : CWallet DemoCore :=
  { core := ⟨50, 0, 0, 0, true, false, [⟨demoTx3, 0, 3⟩, ⟨demoTx4, 0, 6⟩], true, 1⟩
    mapWallet := [(1, demoTx1), (2, demoTx2), (3, demoTx3), (4, demoTx4)]
    mapAddressBook := []
    fWalletUnlockMintOnly := false }

/-- Demo wallet that is encrypted and locked. -/
def demoLockedWallet : CWallet DemoCore :=
  { core := ⟨100, 0, 0, 0, true, true, [], true, 1⟩
    mapWallet := []
    mapAddressBook := []
    fWalletUnlockMintOnly := false }

/-- Demo wallet that is encrypted and unlocked for staking only. -/
def demoStakingWallet : CWallet DemoCore :=
  { core := ⟨100, 0, 0, 0, true, false, [], true, 1⟩
    mapWallet := []
    mapAddressBook := []
    fWalletUnlockMintOnly := true }

/-- A passphrase dialog that unlocks the wallet (not for staking). -/
def demoUnlockDialog (m : WalletModel DemoCore) : WalletModel DemoCore :=
  (m.setWalletLocked (demoEngine true) false "pass" false).2.1

/-- A passphrase dialog that is cancelled. -/
def demoCancelDialog (m : WalletModel DemoCore) : WalletModel DemoCore := m

/-- A transaction whose first input references output 0 of the transaction
recorded under hash 1, with one change output. -/
def demoSelfTx : CWalletTx := ⟨[⟨⟨1, 0⟩⟩], [⟨40, [8, 0]⟩]⟩

/-- Demo wallet whose record holds `demoSelfTx` under hash 1, so that the
first input of the transaction references the transaction itself; its change
output is the one available coin. -/
def demoSelfWallet : CWallet DemoCore :=
  { core := ⟨40, 0, 0, 0, true, false, [⟨demoSelfTx, 0, 1⟩], true, 1⟩
    mapWallet := [(1, demoSelfTx)]
    mapAddressBook := []
    fWalletUnlockMintOnly := false }

/-- Freshly constructed model (constructor initialiser list) over a wallet. -/
def newModel (wallet : CWallet κ) : WalletModel κ :=
  { wallet := wallet
    addressTableModel := true
    transactionTableModel := true
    cachedBalance := 0
    cachedStake := 0
    cachedUnconfirmedBalance := 0
    cachedImmatureBalance := 0
    cachedNumTransactions := 0
    cachedEncryptionStatus := EncryptionStatus.Unencrypted
    cachedNumBlocks := 0 }

/-! ## Theorems -/

/-! ### Pre-check loop -/

theorem qsetInsert_length_le (s : List String) (addrs : List String) :
    (addrs.foldl qsetInsert s).length ≤ s.length + addrs.length := by
  induction addrs generalizing s with
  | nil => simp
  | cons a rest ih =>
    simp only [List.foldl_cons, List.length_cons]
    by_cases h : a ∈ s
    · have := ih s
      simp only [qsetInsert, h, if_true]
      omega
    · have := ih (s ++ [a])
      simp only [qsetInsert, h, if_false]
      simp only [List.length_append, List.length_singleton] at this
      omega

theorem qsetInsert_length_eq_iff (s : List String) (addrs : List String) :
    (addrs.foldl qsetInsert s).length = s.length + addrs.length ↔
      addrs.Nodup ∧ ∀ a ∈ addrs, a ∉ s := by
  induction addrs generalizing s with
  | nil => simp
  | cons a rest ih =>
    simp only [List.foldl_cons, List.length_cons, List.nodup_cons, List.mem_cons]
    by_cases h : a ∈ s
    · have hle := qsetInsert_length_le s rest
      simp only [qsetInsert, h, if_true]
      constructor
      · intro heq; omega
      · rintro ⟨_, hall⟩
        exact absurd h (hall a (Or.inl rfl))
    · simp only [qsetInsert, h, if_false]
      have := ih (s ++ [a])
      simp only [List.length_append, List.length_singleton] at this
      constructor
      · intro heq
        have h2 := this.mp (by omega)
        refine ⟨⟨?_, h2.1⟩, ?_⟩
        · intro hmem
          have := h2.2 a hmem
          simp at this
        · rintro x (rfl | hx)
          · exact h
          · have := h2.2 x hx
            simp only [List.mem_append, List.mem_singleton, not_or] at this
            exact this.1
      · rintro ⟨⟨hna, hnd⟩, hall⟩
        have h2 := this.mpr ⟨hnd, by
          intro x hx
          simp only [List.mem_append, List.mem_singleton, not_or]
          refine ⟨hall x (Or.inr hx), ?_⟩
          rintro rfl
          exact hna hx⟩
        omega

/-- The running total of the pre-check loop. -/
theorem sendCoinsPrecheck_ok (E : Engine κ) (rs : List SendCoinsRecipient) (total : Int)
    (s : List String) (h : ∀ r ∈ rs, recipientOk E r) :
    sendCoinsPrecheck E rs total s =
      .ok (rs.foldl (fun t r => wrap64 (t + r.amount)) total,
           (rs.map (fun r => r.address)).foldl qsetInsert s) := by
  induction rs generalizing total s with
  | nil => simp [sendCoinsPrecheck]
  | cons r rest ih =>
    have hr := h r (List.mem_cons_self _ _)
    have hrest : ∀ x ∈ rest, recipientOk E x := fun x hx => h x (List.mem_cons_of_mem _ hx)
    unfold sendCoinsPrecheck
    simp only [validateAddress, hr.1, Bool.not_true, Bool.false_eq_true, if_false,
      not_le.mpr hr.2, List.foldl_cons, List.map_cons]
    exact ih _ _ hrest

theorem sendCoinsPrecheck_error (E : Engine κ) (pre : List SendCoinsRecipient)
    (r : SendCoinsRecipient) (post : List SendCoinsRecipient) (total : Int) (s : List String)
    (hpre : ∀ p ∈ pre, recipientOk E p) (hr : E.IsValid r.address = false ∨ r.amount ≤ 0) :
    sendCoinsPrecheck E (pre ++ r :: post) total s =
      .error (if E.IsValid r.address = false then StatusCode.InvalidAddress
              else StatusCode.InvalidAmount) := by
  induction pre generalizing total s with
  | nil =>
    simp only [List.nil_append]
    unfold sendCoinsPrecheck
    by_cases hv : E.IsValid r.address = false
    · simp [validateAddress, hv]
    · have hv2 : E.IsValid r.address = true := by simpa using hv
      have ha : r.amount ≤ 0 := by
        rcases hr with h | h
        · exact absurd h hv
        · exact h
      simp [validateAddress, hv2, ha]
  | cons p rest ih =>
    have hp := hpre p (List.mem_cons_self _ _)
    have hrest : ∀ x ∈ rest, recipientOk E x := fun x hx => hpre x (List.mem_cons_of_mem _ hx)
    simp only [List.cons_append]
    unfold sendCoinsPrecheck
    simp only [validateAddress, hp.1, Bool.not_true, Bool.false_eq_true, if_false,
      not_le.mpr hp.2]
    exact ih _ _ hrest

/-! ### `qint64` arithmetic -/

theorem wrap64_of_inInt64 (x : Int) (h : inInt64 x) : wrap64 x = x := by
  unfold inInt64 at h
  unfold wrap64
  omega

theorem wrap64_inInt64 (x : Int) : inInt64 (wrap64 x) := by
  unfold inInt64 wrap64
  omega

theorem amountSum_cons (r : SendCoinsRecipient) (rs : List SendCoinsRecipient) :
    amountSum (r :: rs) = r.amount + amountSum rs := by
  simp [amountSum]

theorem amountSum_nonneg (rs : List SendCoinsRecipient) (h : ∀ r ∈ rs, 0 < r.amount) :
    0 ≤ amountSum rs := by
  induction rs with
  | nil => simp [amountSum]
  | cons r rest ih =>
    rw [amountSum_cons]
    have h1 := h r (List.mem_cons_self _ _)
    have h2 := ih (fun x hx => h x (List.mem_cons_of_mem _ hx))
    omega

/-- While the arithmetic sum fits in a `qint64`, the running total of the
pre-check loop is the arithmetic sum. -/
theorem runningTotal_eq_amountSum (rs : List SendCoinsRecipient) (total : Int)
    (h0 : 0 ≤ total) (hpos : ∀ r ∈ rs, 0 < r.amount) (hfit : total + amountSum rs < 2 ^ 63) :
    rs.foldl (fun t r => wrap64 (t + r.amount)) total = total + amountSum rs := by
  induction rs generalizing total with
  | nil => simp [amountSum]
  | cons r rest ih =>
    have h1 := hpos r (List.mem_cons_self _ _)
    have hrest : ∀ x ∈ rest, 0 < x.amount := fun x hx => hpos x (List.mem_cons_of_mem _ hx)
    have h2 := amountSum_nonneg rest hrest
    rw [amountSum_cons] at hfit
    have hw : wrap64 (total + r.amount) = total + r.amount :=
      wrap64_of_inInt64 _ ⟨by omega, by omega⟩
    simp only [List.foldl_cons, hw]
    rw [ih (total + r.amount) (by omega) hrest (by omega), amountSum_cons]
    omega

theorem sumCoins_inInt64 (coins : List COutput) (acc : Int) (h : inInt64 acc) :
    inInt64 (sumCoins coins acc) := by
  induction coins generalizing acc with
  | nil => simpa [sumCoins] using h
  | cons c rest ih =>
    unfold sumCoins
    exact ih _ (wrap64_inInt64 _)

theorem getBalance_inInt64 (E : Engine κ) (m : WalletModel κ) (cc : Option CCoinControl)
    (hE : inInt64 (E.GetBalance m.wallet)) : inInt64 (m.getBalance E cc).1 := by
  cases cc with
  | none => exact hE
  | some c =>
    simp only [WalletModel.getBalance]
    exact sumCoins_inInt64 _ 0 (by unfold inInt64; omega)

/-- The pre-check loop either accepts every recipient or stops with one of
the two validation statuses. -/
theorem sendCoinsPrecheck_cases (E : Engine κ) (rs : List SendCoinsRecipient) (total : Int)
    (s : List String) :
    (∀ r ∈ rs, recipientOk E r) ∨
      (sendCoinsPrecheck E rs total s = .error StatusCode.InvalidAddress ∨
       sendCoinsPrecheck E rs total s = .error StatusCode.InvalidAmount) := by
  induction rs generalizing total s with
  | nil => left; simp
  | cons r rest ih =>
    by_cases hv : E.IsValid r.address = true
    · by_cases ha : r.amount ≤ 0
      · right; right
        unfold sendCoinsPrecheck
        simp [validateAddress, hv, ha]
      · rcases ih (wrap64 (total + r.amount)) (qsetInsert s r.address) with h | h
        · left
          intro x hx
          rcases List.mem_cons.mp hx with rfl | hx
          · exact ⟨hv, not_le.mp ha⟩
          · exact h x hx
        · right
          unfold sendCoinsPrecheck
          simpa [validateAddress, hv, ha] using h
    · right; left
      unfold sendCoinsPrecheck
      simp [validateAddress, hv]

/-- With every recipient accepted and a repeated address, the call ends at
the duplicate check, before any engine call. -/
theorem sendCoins_duplicate_status (E : Engine κ) (m : WalletModel κ)
    (rs : List SendCoinsRecipient) (cc : Option CCoinControl)
    (hdup : ¬ (rs.map (fun r => r.address)).Nodup) (hok : ∀ r ∈ rs, recipientOk E r) :
    (m.sendCoins E rs cc).1.status = StatusCode.DuplicateAddress ∧
      (m.sendCoins E rs cc).2.2 = [] := by
  have hne : rs.isEmpty = false := by
    cases rs with
    | nil => simp at hdup
    | cons _ _ => rfl
  have hlen : ((rs.map (fun r => r.address)).foldl qsetInsert []).length < rs.length := by
    have hle := qsetInsert_length_le [] (rs.map (fun r => r.address))
    have hiff := qsetInsert_length_eq_iff [] (rs.map (fun r => r.address))
    simp only [List.length_nil, List.length_map, Nat.zero_add] at hle hiff
    rcases Nat.lt_or_ge ((rs.map (fun r => r.address)).foldl qsetInsert []).length rs.length
      with h | h
    · exact h
    · exact absurd (hiff.mp (by omega)).1 hdup
  simp [WalletModel.sendCoins, hne, sendCoinsPrecheck_ok E rs 0 [] hok, hlen]

/-! ### C1: validation errors come before the duplicate check -/

/-- C1. For a recipient list in which some address occurs more than once (such
a list is non-empty) and every recipient has a valid address and a positive
amount, `sendCoins` returns `DuplicateAddress`.  For a recipient list whose
first failing recipient is `r` (everything before it passes), the result is
`InvalidAddress` when the address of `r` is invalid and `InvalidAmount`
otherwise, and it is not `DuplicateAddress`, whatever duplicates the list has. -/
theorem sendCoins_validation_before_duplicate (E : Engine κ) (m : WalletModel κ)
    (rs : List SendCoinsRecipient) (cc : Option CCoinControl) :
    (¬ (rs.map (fun r => r.address)).Nodup → (∀ r ∈ rs, recipientOk E r) →
        (m.sendCoins E rs cc).1.status = StatusCode.DuplicateAddress) ∧
    (∀ pre r post, rs = pre ++ r :: post → (∀ p ∈ pre, recipientOk E p) →
        (E.IsValid r.address = false ∨ r.amount ≤ 0) →
        (m.sendCoins E rs cc).1.status =
            (if E.IsValid r.address = false then StatusCode.InvalidAddress
             else StatusCode.InvalidAmount) ∧
          (m.sendCoins E rs cc).1.status ≠ StatusCode.DuplicateAddress) := by
  constructor
  · intro hdup hok
    exact (sendCoins_duplicate_status E m rs cc hdup hok).1
  · intro pre r post hrs hpre hr
    have hne : rs.isEmpty = false := by
      subst hrs
      cases pre <;> rfl
    have hst : (m.sendCoins E rs cc).1.status =
        (if E.IsValid r.address = false then StatusCode.InvalidAddress
         else StatusCode.InvalidAmount) := by
      subst hrs
      simp only [WalletModel.sendCoins, hne, sendCoinsPrecheck_error E pre r post 0 [] hpre hr]
      simp
    refine ⟨hst, ?_⟩
    rw [hst]
    split <;> simp

/-- C1 at concrete inputs: two valid payments to the same address, and a list
holding an invalid address next to a duplicate. -/
theorem sendCoins_validation_before_duplicate_witness :
    ((newModel (demoWallet 100)).sendCoins (demoEngine true)
        [⟨"HA", 10, "a"⟩, ⟨"HA", 20, "b"⟩] none).1.status = StatusCode.DuplicateAddress ∧
    ((newModel (demoWallet 100)).sendCoins (demoEngine true)
        [⟨"HA", 10, "a"⟩, ⟨"", 20, "b"⟩, ⟨"HA", 5, "c"⟩] none).1.status
      = StatusCode.InvalidAddress :=
  ⟨(sendCoins_validation_before_duplicate (demoEngine true) (newModel (demoWallet 100))
      [⟨"HA", 10, "a"⟩, ⟨"HA", 20, "b"⟩] none).1 (by decide) (by
        intro r hr
        simp only [List.mem_cons, List.mem_singleton, List.not_mem_nil, or_false] at hr
        rcases hr with rfl | rfl <;> exact ⟨by decide, by decide⟩),
   ((sendCoins_validation_before_duplicate (demoEngine true) (newModel (demoWallet 100))
      [⟨"HA", 10, "a"⟩, ⟨"", 20, "b"⟩, ⟨"HA", 5, "c"⟩] none).2
        [⟨"HA", 10, "a"⟩] ⟨"", 20, "b"⟩ [⟨"HA", 5, "c"⟩] rfl (by
          intro p hp
          simp only [List.mem_singleton] at hp
          subst hp
          exact ⟨by decide, by decide⟩) (Or.inl (by decide))).1⟩

/-! ### C2: total above the balance -/

theorem getBalance_trace (E : Engine κ) (m : WalletModel κ) (cc : Option CCoinControl) :
    ∀ e ∈ (m.getBalance E cc).2, e = Event.GetBalance ∨ e = Event.AvailableCoins := by
  intro e he
  cases cc with
  | none =>
    simp only [WalletModel.getBalance, List.mem_singleton] at he
    exact Or.inl he
  | some c =>
    simp only [WalletModel.getBalance, List.mem_singleton] at he
    exact Or.inr he

/-- Once every recipient passes and the addresses are distinct, the pre-check
part of `sendCoins` is over and the rest runs on the running total. -/
theorem sendCoins_checked_raw (E : Engine κ) (m : WalletModel κ) (rs : List SendCoinsRecipient)
    (cc : Option CCoinControl) (hne : rs ≠ []) (hok : ∀ r ∈ rs, recipientOk E r)
    (hnd : (rs.map (fun r => r.address)).Nodup) :
    m.sendCoins E rs cc = sendCoinsTail E m rs cc (runningTotal rs) := by
  have hempty : rs.isEmpty = false := by
    cases rs with
    | nil => exact absurd rfl hne
    | cons _ _ => rfl
  have hlen : ¬ ((rs.map (fun r => r.address)).foldl qsetInsert []).length < rs.length := by
    have hiff := qsetInsert_length_eq_iff [] (rs.map (fun r => r.address))
    simp only [List.length_nil, List.length_map, Nat.zero_add] at hiff
    have := hiff.mpr ⟨hnd, by simp⟩
    omega
  simp only [WalletModel.sendCoins, hempty, sendCoinsPrecheck_ok E rs 0 [] hok, sendCoinsTail,
    runningTotal]
  simp only [Bool.false_eq_true, if_false, gt_iff_lt, hlen]

/-- While the sum of the accepted amounts fits in a `qint64`, the running
total is that sum. -/
theorem runningTotal_eq_amountSum_of_fits (E : Engine κ) (rs : List SendCoinsRecipient)
    (hok : ∀ r ∈ rs, recipientOk E r) (hfit : amountSum rs < 2 ^ 63) :
    runningTotal rs = amountSum rs := by
  have := runningTotal_eq_amountSum rs 0 (le_refl 0) (fun r hr => (hok r hr).2) (by omega)
  simpa [runningTotal] using this

theorem runningTotal_inInt64 (rs : List SendCoinsRecipient) : inInt64 (runningTotal rs) := by
  have key : ∀ (l : List SendCoinsRecipient) (acc : Int), inInt64 acc →
      inInt64 (l.foldl (fun t rcp => wrap64 (t + rcp.amount)) acc) := by
    intro l
    induction l with
    | nil => intro acc h; simpa using h
    | cons r rest ih =>
      intro acc _
      simp only [List.foldl_cons]
      exact ih _ (wrap64_inInt64 _)
  exact key rs 0 (by unfold inInt64; omega)

/-- C2. For a non-empty recipient list that passes validation (valid
addresses, positive amounts, pairwise distinct addresses) and whose total
exceeds the balance returned by `getBalance` (whole wallet, or the filtered
outputs under coin control), `sendCoins` returns `AmountExceedsBalance`, the
model and its wallet (address book included) are unchanged, and the call
trace holds no `CreateTransaction`, `CommitTransaction` or
`SetAddressBookName`.  The total is the value of `total` after the pre-check
loop, or, what is the same whenever it fits in a `qint64`, the sum of the
amounts. -/
theorem sendCoins_amount_exceeds_balance (E : Engine κ) (m : WalletModel κ)
    (rs : List SendCoinsRecipient) (cc : Option CCoinControl) (hne : rs ≠ [])
    (hok : ∀ r ∈ rs, recipientOk E r) (hnd : (rs.map (fun r => r.address)).Nodup)
    (hgt : (m.getBalance E cc).1 < runningTotal rs ∨
      (amountSum rs < 2 ^ 63 ∧ (m.getBalance E cc).1 < amountSum rs)) :
    (m.sendCoins E rs cc).1 = ⟨StatusCode.AmountExceedsBalance, 0, ""⟩ ∧
    (m.sendCoins E rs cc).2.1 = m ∧
    (m.sendCoins E rs cc).2.1.wallet.mapAddressBook = m.wallet.mapAddressBook ∧
    (∀ v, Event.CreateTransaction v ∉ (m.sendCoins E rs cc).2.2) ∧
    Event.CommitTransaction ∉ (m.sendCoins E rs cc).2.2 ∧
    (∀ d l, Event.SetAddressBookName d l ∉ (m.sendCoins E rs cc).2.2) := by
  have hgt2 : runningTotal rs > (m.getBalance E cc).1 := by
    rcases hgt with h | ⟨hfit, h⟩
    · exact h
    · rw [runningTotal_eq_amountSum_of_fits E rs hok hfit]
      exact h
  have h := sendCoins_checked_raw E m rs cc hne hok hnd
  unfold sendCoinsTail at h
  rw [if_pos hgt2] at h
  rw [h]
  have htr := getBalance_trace E m cc
  refine ⟨rfl, rfl, rfl, ?_, ?_, ?_⟩
  · intro v hv
    rcases htr _ hv with h1 | h1 <;> cases h1
  · intro hv
    rcases htr _ hv with h1 | h1 <;> cases h1
  · intro d l hv
    rcases htr _ hv with h1 | h1 <;> cases h1

/-- C2 at the spec example: balance 100, two requests of 60 to distinct
addresses. -/
theorem sendCoins_amount_exceeds_balance_witness :
    ((newModel (demoWallet 100)).sendCoins (demoEngine true)
        [⟨"HA", 60, "a"⟩, ⟨"HBB", 60, "b"⟩] none).1 = ⟨StatusCode.AmountExceedsBalance, 0, ""⟩ ∧
    ((newModel (demoWallet 100)).sendCoins (demoEngine true)
        [⟨"HA", 60, "a"⟩, ⟨"HBB", 60, "b"⟩] none).2.2 = [Event.GetBalance] :=
  ⟨(sendCoins_amount_exceeds_balance (demoEngine true) (newModel (demoWallet 100))
      [⟨"HA", 60, "a"⟩, ⟨"HBB", 60, "b"⟩] none (by simp) (by
        intro r hr
        simp only [List.mem_cons, List.mem_singleton, List.not_mem_nil, or_false] at hr
        rcases hr with rfl | rfl <;> exact ⟨by decide, by decide⟩)
      (by decide) (Or.inr ⟨by decide, by decide⟩)).1, by decide⟩

/-! ### C3: the fee carried by `AmountWithFeeExceedsBalance` -/

/-- A call that does not get as far as the balance checks makes no engine
call and returns `OK` (empty list) or a validation status. -/
theorem sendCoins_early (E : Engine κ) (m : WalletModel κ) (rs : List SendCoinsRecipient)
    (cc : Option CCoinControl) :
    (rs ≠ [] ∧ (∀ r ∈ rs, recipientOk E r) ∧ (rs.map (fun r => r.address)).Nodup) ∨
    ((m.sendCoins E rs cc).2.2 = [] ∧
      ((m.sendCoins E rs cc).1.status = StatusCode.OK ∨
       (m.sendCoins E rs cc).1.status = StatusCode.InvalidAddress ∨
       (m.sendCoins E rs cc).1.status = StatusCode.InvalidAmount ∨
       (m.sendCoins E rs cc).1.status = StatusCode.DuplicateAddress)) := by
  by_cases hne : rs = []
  · right
    subst hne
    simp [WalletModel.sendCoins]
  · have hempty : rs.isEmpty = false := by
      cases rs with
      | nil => exact absurd rfl hne
      | cons _ _ => rfl
    rcases sendCoinsPrecheck_cases E rs 0 [] with hok | herr | herr
    · by_cases hnd : (rs.map (fun r => r.address)).Nodup
      · exact Or.inl ⟨hne, hok, hnd⟩
      · right
        have h := (sendCoins_duplicate_status E m rs cc hnd hok)
        exact ⟨h.2, Or.inr (Or.inr (Or.inr h.1))⟩
    · right
      simp [WalletModel.sendCoins, hempty, herr]
    · right
      simp [WalletModel.sendCoins, hempty, herr]

theorem wrap64_add_gt (total fee bal : Int) (ht : inInt64 total) (hf : isFee fee)
    (hb : inInt64 bal) (h : wrap64 (total + fee) > bal) : bal < total + fee := by
  unfold inInt64 at ht hb
  unfold isFee at hf
  unfold wrap64 at h
  omega

theorem wrap64_add_le (total fee bal : Int) (ht : inInt64 total) (hf : isFee fee)
    (hb : inInt64 bal) (h : total + fee ≤ bal) : ¬ wrap64 (total + fee) > bal := by
  unfold inInt64 at ht hb
  unfold isFee at hf
  unfold wrap64
  omega

/-- C3. Assume the flat fee and the required fee reported by the build are
fees (non-negative `qint64`) and the wallet balance is a `qint64`; `total` is
the value of `total` after the pre-check loop, which is the sum of the
amounts whenever that sum fits in a `qint64`.  Whenever `sendCoins` returns
`AmountWithFeeExceedsBalance`, the carried fee `f` satisfies
`total ≤ balance < total + f`, and either `f` is the flat fee
`nTransactionFee` and `CreateTransaction` was never invoked, or
`CreateTransaction` was invoked and failed, and `f` is the required fee it
reported.  And when the build is invoked, fails and
`total + requiredFee ≤ balance`, the result is `TransactionCreationFailed`. -/
theorem sendCoins_fee_exceeds_balance (E : Engine κ) (m : WalletModel κ)
    (rs : List SendCoinsRecipient) (cc : Option CCoinControl)
    (hE : callValuesTyped E m rs cc) :
    ((m.sendCoins E rs cc).1.status = StatusCode.AmountWithFeeExceedsBalance →
      runningTotal rs ≤ (m.getBalance E cc).1 ∧
      (m.getBalance E cc).1 < runningTotal rs + (m.sendCoins E rs cc).1.fee ∧
      (amountSum rs < 2 ^ 63 → runningTotal rs = amountSum rs) ∧
      (((m.sendCoins E rs cc).1.fee = E.nTransactionFee ∧
          ∀ v, Event.CreateTransaction v ∉ (m.sendCoins E rs cc).2.2) ∨
       (Event.CreateTransaction (sendCoinsVecSend E rs) ∈ (m.sendCoins E rs cc).2.2 ∧
          (E.CreateTransaction m.wallet (sendCoinsVecSend E rs) cc).fCreated = false ∧
          (m.sendCoins E rs cc).1.fee =
            (E.CreateTransaction m.wallet (sendCoinsVecSend E rs) cc).nFeeRequired))) ∧
    (Event.CreateTransaction (sendCoinsVecSend E rs) ∈ (m.sendCoins E rs cc).2.2 →
      (E.CreateTransaction m.wallet (sendCoinsVecSend E rs) cc).fCreated = false →
      (amountSum rs < 2 ^ 63 → runningTotal rs = amountSum rs) ∧
      (runningTotal rs + (E.CreateTransaction m.wallet (sendCoinsVecSend E rs) cc).nFeeRequired
          ≤ (m.getBalance E cc).1 →
        (m.sendCoins E rs cc).1.status = StatusCode.TransactionCreationFailed)) := by
  have hbal := getBalance_inInt64 E m cc hE.2.1
  have hfee := hE.1
  have hreq := hE.2.2
  have htot := runningTotal_inInt64 rs
  have htr := getBalance_trace E m cc
  rcases sendCoins_early E m rs cc with ⟨hne, hok, hnd⟩ | ⟨htr0, hst⟩
  · have h := sendCoins_checked_raw E m rs cc hne hok hnd
    unfold sendCoinsTail at h
    have hsum : amountSum rs < 2 ^ 63 → runningTotal rs = amountSum rs :=
      runningTotal_eq_amountSum_of_fits E rs hok
    have hnocreate : ∀ v, Event.CreateTransaction v ∉ (m.getBalance E cc).2 := by
      intro v hv
      rcases htr _ hv with h1 | h1 <;> cases h1
    by_cases c1 : runningTotal rs > (m.getBalance E cc).1
    · rw [if_pos c1] at h
      rw [h]
      refine ⟨by simp, ?_⟩
      intro hmem
      exact absurd hmem (hnocreate _)
    · rw [if_neg c1] at h
      by_cases c2 : wrap64 (runningTotal rs + E.nTransactionFee) > (m.getBalance E cc).1
      · rw [if_pos c2] at h
        rw [h]
        refine ⟨?_, ?_⟩
        · intro _
          exact ⟨not_lt.mp c1, wrap64_add_gt _ _ _ htot hfee hbal c2, hsum,
            Or.inl ⟨rfl, hnocreate⟩⟩
        · intro hmem
          exact absurd hmem (hnocreate _)
      · rw [if_neg c2] at h
        by_cases c3 : (E.CreateTransaction m.wallet (sendCoinsVecSend E rs) cc).fCreated = true
        · have hs : (m.sendCoins E rs cc).1.status ≠ StatusCode.AmountWithFeeExceedsBalance := by
            rw [h]
            simp only [c3, Bool.not_true, Bool.false_eq_true, if_false]
            split_ifs <;> simp
          refine ⟨fun hc => absurd hc hs, ?_⟩
          intro _ hf
          rw [c3] at hf
          exact absurd hf (by simp)
        · have c3f : (E.CreateTransaction m.wallet (sendCoinsVecSend E rs) cc).fCreated = false := by
            simpa using c3
          by_cases c4 : wrap64 (runningTotal rs +
              (E.CreateTransaction m.wallet (sendCoinsVecSend E rs) cc).nFeeRequired)
                > (m.getBalance E cc).1
          · have hval : m.sendCoins E rs cc =
                (⟨StatusCode.AmountWithFeeExceedsBalance,
                  (E.CreateTransaction m.wallet (sendCoinsVecSend E rs) cc).nFeeRequired, ""⟩,
                 m,
                 (m.getBalance E cc).2 ++ [Event.CreateTransaction (sendCoinsVecSend E rs)]) := by
              rw [h]
              simp only [c3f, Bool.not_false, if_true, c4]
              rfl
            rw [hval]
            refine ⟨?_, ?_⟩
            · intro _
              refine ⟨not_lt.mp c1, wrap64_add_gt _ _ _ htot hreq hbal c4, hsum,
                Or.inr ⟨by simp, c3f, rfl⟩⟩
            · intro _ _
              refine ⟨hsum, ?_⟩
              intro hle
              exact absurd c4 (wrap64_add_le _ _ _ htot hreq hbal hle)
          · have hval : m.sendCoins E rs cc =
                (⟨StatusCode.TransactionCreationFailed, 0, ""⟩,
                 m,
                 (m.getBalance E cc).2 ++ [Event.CreateTransaction (sendCoinsVecSend E rs)]) := by
              rw [h]
              simp only [c3f, Bool.not_false, if_true, c4, if_false]
              rfl
            rw [hval]
            exact ⟨by simp, fun _ _ => ⟨hsum, fun _ => rfl⟩⟩
  · refine ⟨?_, ?_⟩
    · intro hc
      rcases hst with h1 | h1 | h1 | h1 <;> rw [h1] at hc <;> cases hc
    · intro hmem
      rw [htr0] at hmem
      cases hmem

/-- C3 at concrete inputs.  Balance 100, one request of 100: the flat fee 1
rejects before the build.  Balance 100, one request of 97 on a wallet whose
build fails asking for 5: rejected after the build with fee 5; asking for 2:
`TransactionCreationFailed`. -/
theorem sendCoins_fee_exceeds_balance_witness :
    (runningTotal [⟨"HA", 100, "a"⟩] ≤ 100 ∧
      (100 : Int) < runningTotal [⟨"HA", 100, "a"⟩] +
        ((newModel (demoWallet 100)).sendCoins (demoEngine true) [⟨"HA", 100, "a"⟩] none).1.fee) ∧
    ((newModel (demoWalletFailing 100 5)).sendCoins (demoEngine true)
        [⟨"HA", 97, "a"⟩] none).1 = ⟨StatusCode.AmountWithFeeExceedsBalance, 5, ""⟩ ∧
    ((newModel (demoWalletFailing 100 2)).sendCoins (demoEngine true)
        [⟨"HA", 97, "a"⟩] none).1.status = StatusCode.TransactionCreationFailed :=
  ⟨⟨((sendCoins_fee_exceeds_balance (demoEngine true) (newModel (demoWallet 100))
        [⟨"HA", 100, "a"⟩] none (by decide)).1 (by decide)).1,
     ((sendCoins_fee_exceeds_balance (demoEngine true) (newModel (demoWallet 100))
        [⟨"HA", 100, "a"⟩] none (by decide)).1 (by decide)).2.1⟩,
   by decide,
   ((sendCoins_fee_exceeds_balance (demoEngine true) (newModel (demoWalletFailing 100 2))
      [⟨"HA", 97, "a"⟩] none (by decide)).2 (by decide) (by decide)).2 (by decide)⟩

/-! ### C4: a declined fee aborts without mutation -/

theorem getTotBalance_signals (E : Engine κ) (l : List (String × CWallet κ))
    (acc : Int × List Event) (h : signals acc.2 = []) :
    signals (getTotBalance E l acc).2 = [] := by
  induction l generalizing acc with
  | nil => simpa [getTotBalance] using h
  | cons item rest ih =>
    unfold getTotBalance
    apply ih
    simp only [signals, List.filter_append] at h ⊢
    rw [h]
    rfl

/-- What `checkBalanceChanged` does when one of the four amounts differs. -/
theorem checkBalanceChanged_changed (E : Engine κ) (mgr : List (String × CWallet κ))
    (m : WalletModel κ)
    (h : m.cachedBalance ≠ E.GetBalance m.wallet ∨ m.cachedStake ≠ E.GetStake m.wallet ∨
      m.cachedUnconfirmedBalance ≠ E.GetUnconfirmedBalance m.wallet ∨
      m.cachedImmatureBalance ≠ E.GetImmatureBalance m.wallet) :
    (m.checkBalanceChanged E mgr).1 =
      { m with
        cachedBalance := E.GetBalance m.wallet
        cachedStake := E.GetStake m.wallet
        cachedUnconfirmedBalance := E.GetUnconfirmedBalance m.wallet
        cachedImmatureBalance := E.GetImmatureBalance m.wallet } ∧
    signals (m.checkBalanceChanged E mgr).2 =
      [Event.balanceChanged (E.GetBalance m.wallet) (E.GetStake m.wallet)
          (E.GetUnconfirmedBalance m.wallet) (E.GetImmatureBalance m.wallet),
       Event.totBalanceChanged (getTotBalance E mgr (0, [])).1] := by
  have hq : signals (getTotBalance E mgr (0, [])).2 = [] := getTotBalance_signals E mgr _ rfl
  unfold WalletModel.checkBalanceChanged
  simp only [WalletModel.getBalance] at h ⊢
  rw [if_pos h]
  refine ⟨rfl, ?_⟩
  simp only [signals, List.filter_append] at hq ⊢
  rw [hq]
  rfl

/-- What `checkBalanceChanged` does when none of the four amounts differs. -/
theorem checkBalanceChanged_same (E : Engine κ) (mgr : List (String × CWallet κ))
    (m : WalletModel κ)
    (h : ¬ (m.cachedBalance ≠ E.GetBalance m.wallet ∨ m.cachedStake ≠ E.GetStake m.wallet ∨
      m.cachedUnconfirmedBalance ≠ E.GetUnconfirmedBalance m.wallet ∨
      m.cachedImmatureBalance ≠ E.GetImmatureBalance m.wallet)) :
    (m.checkBalanceChanged E mgr).1 = m ∧ signals (m.checkBalanceChanged E mgr).2 = [] := by
  have hq : signals (getTotBalance E mgr (0, [])).2 = [] := getTotBalance_signals E mgr _ rfl
  unfold WalletModel.checkBalanceChanged
  simp only [WalletModel.getBalance] at h ⊢
  rw [if_neg h]
  refine ⟨rfl, ?_⟩
  simp only [signals, List.filter_append] at hq ⊢
  rw [hq]
  rfl

/-- After `checkBalanceChanged` the four cached amounts are the engine's. -/
theorem checkBalanceChanged_synced (E : Engine κ) (mgr : List (String × CWallet κ))
    (m : WalletModel κ) :
    (m.checkBalanceChanged E mgr).1.wallet = m.wallet ∧
    (m.checkBalanceChanged E mgr).1.cachedBalance = E.GetBalance m.wallet ∧
    (m.checkBalanceChanged E mgr).1.cachedStake = E.GetStake m.wallet ∧
    (m.checkBalanceChanged E mgr).1.cachedUnconfirmedBalance = E.GetUnconfirmedBalance m.wallet ∧
    (m.checkBalanceChanged E mgr).1.cachedImmatureBalance = E.GetImmatureBalance m.wallet := by
  by_cases h : m.cachedBalance ≠ E.GetBalance m.wallet ∨ m.cachedStake ≠ E.GetStake m.wallet ∨
      m.cachedUnconfirmedBalance ≠ E.GetUnconfirmedBalance m.wallet ∨
      m.cachedImmatureBalance ≠ E.GetImmatureBalance m.wallet
  · rw [(checkBalanceChanged_changed E mgr m h).1]
    exact ⟨rfl, rfl, rfl, rfl, rfl⟩
  · rw [(checkBalanceChanged_same E mgr m h).1]
    simp only [not_or, not_not] at h
    exact ⟨rfl, h.1, h.2.1, h.2.2.1, h.2.2.2⟩

/-- C5. `checkBalanceChanged` is idempotent: the first call leaves the wallet
(engine state) as it was and emits at most one `balanceChanged`; a second call
on the resulting model, with the same engine state, emits no signal and
returns the model the first call returned. -/
theorem checkBalanceChanged_idempotent (E : Engine κ) (mgr : List (String × CWallet κ))
    (m : WalletModel κ) :
    (m.checkBalanceChanged E mgr).1.wallet = m.wallet ∧
    ((m.checkBalanceChanged E mgr).2.filter Event.isBalanceChanged).length ≤ 1 ∧
    signals ((m.checkBalanceChanged E mgr).1.checkBalanceChanged E mgr).2 = [] ∧
    ((m.checkBalanceChanged E mgr).1.checkBalanceChanged E mgr).1 =
      (m.checkBalanceChanged E mgr).1 := by
  have hs := checkBalanceChanged_synced E mgr m
  have hsame : ¬ ((m.checkBalanceChanged E mgr).1.cachedBalance ≠
        E.GetBalance (m.checkBalanceChanged E mgr).1.wallet ∨
      (m.checkBalanceChanged E mgr).1.cachedStake ≠
        E.GetStake (m.checkBalanceChanged E mgr).1.wallet ∨
      (m.checkBalanceChanged E mgr).1.cachedUnconfirmedBalance ≠
        E.GetUnconfirmedBalance (m.checkBalanceChanged E mgr).1.wallet ∨
      (m.checkBalanceChanged E mgr).1.cachedImmatureBalance ≠
        E.GetImmatureBalance (m.checkBalanceChanged E mgr).1.wallet) := by
    rw [hs.1]
    simp only [not_or, not_not]
    exact hs.2
  have h2 := checkBalanceChanged_same E mgr (m.checkBalanceChanged E mgr).1 hsame
  refine ⟨hs.1, ?_, h2.2, h2.1⟩
  have hfilter : ∀ tr : List Event, tr.filter Event.isBalanceChanged =
      (signals tr).filter Event.isBalanceChanged := by
    intro tr
    simp only [signals, List.filter_filter]
    congr 1
    funext e
    cases e <;> rfl
  rw [hfilter]
  by_cases h : m.cachedBalance ≠ E.GetBalance m.wallet ∨ m.cachedStake ≠ E.GetStake m.wallet ∨
      m.cachedUnconfirmedBalance ≠ E.GetUnconfirmedBalance m.wallet ∨
      m.cachedImmatureBalance ≠ E.GetImmatureBalance m.wallet
  · rw [(checkBalanceChanged_changed E mgr m h).2]
    simp [Event.isBalanceChanged]
  · rw [(checkBalanceChanged_same E mgr m h).2]
    simp

/-- C6, the claim as stated fails: on a freshly constructed model over a wallet
with zero balances and one recorded transaction, the transaction count
differs from the cached one, yet `checkBalanceChanged` emits nothing and
leaves the cached count at 0. -/
theorem checkBalanceChanged_count_counterexample :
    (newModel demoWalletOneTx).cachedNumTransactions ≠
      (newModel demoWalletOneTx).getNumTransactions ∧
    signals ((newModel demoWalletOneTx).checkBalanceChanged (demoEngine true) []).2 = [] ∧
    ((newModel demoWalletOneTx).checkBalanceChanged (demoEngine true) []).1.cachedNumTransactions
      = 0 := by
  decide

/-- `checkBalanceChanged` touches neither the cached transaction count nor the
cached height nor the table-model pointers. -/
theorem checkBalanceChanged_frame (E : Engine κ) (mgr : List (String × CWallet κ))
    (m : WalletModel κ) :
    (m.checkBalanceChanged E mgr).1.cachedNumTransactions = m.cachedNumTransactions ∧
    (m.checkBalanceChanged E mgr).1.cachedNumBlocks = m.cachedNumBlocks ∧
    (m.checkBalanceChanged E mgr).1.transactionTableModel = m.transactionTableModel := by
  by_cases h : m.cachedBalance ≠ E.GetBalance m.wallet ∨ m.cachedStake ≠ E.GetStake m.wallet ∨
      m.cachedUnconfirmedBalance ≠ E.GetUnconfirmedBalance m.wallet ∨
      m.cachedImmatureBalance ≠ E.GetImmatureBalance m.wallet
  · rw [(checkBalanceChanged_changed E mgr m h).1]
    exact ⟨rfl, rfl, rfl⟩
  · rw [(checkBalanceChanged_same E mgr m h).1]
    exact ⟨rfl, rfl, rfl⟩

/-- No `numTransactionsChanged` comes out of `checkBalanceChanged`. -/
theorem checkBalanceChanged_no_count_signal (E : Engine κ) (mgr : List (String × CWallet κ))
    (m : WalletModel κ) (n : Int) :
    Event.numTransactionsChanged n ∉ (m.checkBalanceChanged E mgr).2 := by
  intro hmem
  have hsig : Event.numTransactionsChanged n ∈ signals (m.checkBalanceChanged E mgr).2 := by
    simp only [signals, List.mem_filter]
    exact ⟨hmem, rfl⟩
  by_cases h : m.cachedBalance ≠ E.GetBalance m.wallet ∨ m.cachedStake ≠ E.GetStake m.wallet ∨
      m.cachedUnconfirmedBalance ≠ E.GetUnconfirmedBalance m.wallet ∨
      m.cachedImmatureBalance ≠ E.GetImmatureBalance m.wallet
  · rw [(checkBalanceChanged_changed E mgr m h).2] at hsig
    simp at hsig
  · rw [(checkBalanceChanged_same E mgr m h).2] at hsig
    simp at hsig

/-- C6 (amended). `checkBalanceChanged` reads the four amounts and reports a
delta exactly when one of the four differs from its cached value.  When it
does, the four cached amounts become the values read and the signals are
`balanceChanged` with exactly those four values, then `totBalanceChanged`;
when it does not, the model is unchanged and no signal is emitted.  The cached
transaction count is never touched by `checkBalanceChanged`;
`updateTransaction` compares it after `checkBalanceChanged`, stores the count
read from the wallet and emits `numTransactionsChanged` exactly when it
differed. -/
theorem checkBalanceChanged_reports_amounts (E : Engine κ) (mgr : List (String × CWallet κ))
    (m : WalletModel κ) (hash : String) (status : Int) :
    (signals (m.checkBalanceChanged E mgr).2 ≠ [] ↔
      (m.cachedBalance ≠ E.GetBalance m.wallet ∨ m.cachedStake ≠ E.GetStake m.wallet ∨
        m.cachedUnconfirmedBalance ≠ E.GetUnconfirmedBalance m.wallet ∨
        m.cachedImmatureBalance ≠ E.GetImmatureBalance m.wallet)) ∧
    ((m.cachedBalance ≠ E.GetBalance m.wallet ∨ m.cachedStake ≠ E.GetStake m.wallet ∨
        m.cachedUnconfirmedBalance ≠ E.GetUnconfirmedBalance m.wallet ∨
        m.cachedImmatureBalance ≠ E.GetImmatureBalance m.wallet) →
      (m.checkBalanceChanged E mgr).1 =
        { m with
          cachedBalance := E.GetBalance m.wallet
          cachedStake := E.GetStake m.wallet
          cachedUnconfirmedBalance := E.GetUnconfirmedBalance m.wallet
          cachedImmatureBalance := E.GetImmatureBalance m.wallet } ∧
      signals (m.checkBalanceChanged E mgr).2 =
        [Event.balanceChanged (E.GetBalance m.wallet) (E.GetStake m.wallet)
            (E.GetUnconfirmedBalance m.wallet) (E.GetImmatureBalance m.wallet),
         Event.totBalanceChanged (getTotBalance E mgr (0, [])).1]) ∧
    (¬ (m.cachedBalance ≠ E.GetBalance m.wallet ∨ m.cachedStake ≠ E.GetStake m.wallet ∨
        m.cachedUnconfirmedBalance ≠ E.GetUnconfirmedBalance m.wallet ∨
        m.cachedImmatureBalance ≠ E.GetImmatureBalance m.wallet) →
      (m.checkBalanceChanged E mgr).1 = m ∧ signals (m.checkBalanceChanged E mgr).2 = []) ∧
    (m.checkBalanceChanged E mgr).1.cachedNumTransactions = m.cachedNumTransactions ∧
    (m.updateTransaction E mgr hash status).1.cachedNumTransactions = m.getNumTransactions ∧
    (m.cachedNumTransactions ≠ m.getNumTransactions →
      Event.numTransactionsChanged m.getNumTransactions ∈
        (m.updateTransaction E mgr hash status).2) ∧
    (m.cachedNumTransactions = m.getNumTransactions →
      ∀ n, Event.numTransactionsChanged n ∉ (m.updateTransaction E mgr hash status).2) := by
  have hfr := checkBalanceChanged_frame E mgr m
  have hw := (checkBalanceChanged_synced E mgr m).1
  have hnum : (m.checkBalanceChanged E mgr).1.getNumTransactions = m.getNumTransactions := by
    simp only [WalletModel.getNumTransactions, hw]
  refine ⟨?_, checkBalanceChanged_changed E mgr m, checkBalanceChanged_same E mgr m, hfr.1,
    ?_, ?_, ?_⟩
  · constructor
    · intro hne
      by_contra hcon
      exact hne (checkBalanceChanged_same E mgr m hcon).2
    · intro hch
      rw [(checkBalanceChanged_changed E mgr m hch).2]
      simp
  · unfold WalletModel.updateTransaction
    simp only [hnum, hfr.1]
    by_cases hc : m.cachedNumTransactions ≠ m.getNumTransactions
    · rw [if_pos hc]
    · rw [if_neg hc]
      simp only [hfr.1]
      exact not_not.mp hc
  · intro hne
    unfold WalletModel.updateTransaction
    simp only [hnum, hfr.1, if_pos hne]
    simp
  · intro heq n
    unfold WalletModel.updateTransaction
    simp only [hnum, hfr.1, heq, ne_eq, not_true_eq_false, if_false]
    intro hmem
    rcases List.mem_append.mp hmem with h1 | h1
    · split_ifs at h1
      · simp at h1
      · simp at h1
    · exact checkBalanceChanged_no_count_signal E mgr m n h1

/-- C6 (amended) at a concrete input: a fresh model over a wallet with balance
100 reports the four amounts read. -/
theorem checkBalanceChanged_reports_amounts_witness :
    signals ((newModel (demoWallet 100)).checkBalanceChanged (demoEngine true) []).2 =
      [Event.balanceChanged 100 0 0 0, Event.totBalanceChanged 0] ∧
    Event.numTransactionsChanged 1 ∈
      ((newModel demoWalletOneTx).updateTransaction (demoEngine true) [] "00" 0).2 :=
  ⟨((checkBalanceChanged_reports_amounts (demoEngine true) [] (newModel (demoWallet 100))
      "00" 0).2.1 (by decide)).2,
   (checkBalanceChanged_reports_amounts (demoEngine true) [] (newModel demoWalletOneTx)
      "00" 0).2.2.2.2.2.1 (by decide)⟩

/-! ### C10: `pollBalanceChanged` -/

/-- C10. When the first try-lock fails, or the second one does, the poll
returns the model unchanged with an empty trace (no cached field changes, no
engine query, no signal).  With both locks held, an unchanged height again
gives the model unchanged and an empty trace; a changed height stores the new
height and runs `checkBalanceChanged` on the result (followed by
`updateConfirmations` when there is a transaction table). -/
theorem pollBalanceChanged_skips_on_contention (E : Engine κ)
    (mgr : List (String × CWallet κ)) (lockMain lockWallet : Bool) (nBestHeight : Int)
    (m : WalletModel κ) :
    ((lockMain = false ∨ lockWallet = false) →
      m.pollBalanceChanged E mgr lockMain lockWallet nBestHeight = (m, [])) ∧
    (lockMain = true → lockWallet = true →
      (nBestHeight = m.cachedNumBlocks →
        m.pollBalanceChanged E mgr lockMain lockWallet nBestHeight = (m, [])) ∧
      (nBestHeight ≠ m.cachedNumBlocks →
        (m.pollBalanceChanged E mgr lockMain lockWallet nBestHeight).1 =
          (({ m with cachedNumBlocks := nBestHeight }).checkBalanceChanged E mgr).1 ∧
        (m.pollBalanceChanged E mgr lockMain lockWallet nBestHeight).1.cachedNumBlocks
          = nBestHeight ∧
        (m.pollBalanceChanged E mgr lockMain lockWallet nBestHeight).2 =
          (({ m with cachedNumBlocks := nBestHeight }).checkBalanceChanged E mgr).2 ++
            (if m.transactionTableModel then [Event.updateConfirmations] else []))) := by
  refine ⟨?_, ?_⟩
  · rintro (h | h)
    · simp [WalletModel.pollBalanceChanged, h]
    · cases lockMain <;> simp [WalletModel.pollBalanceChanged, h]
  · intro h1 h2
    refine ⟨?_, ?_⟩
    · intro heq
      simp [WalletModel.pollBalanceChanged, h1, h2, heq]
    · intro hne
      have hfr := checkBalanceChanged_frame E mgr { m with cachedNumBlocks := nBestHeight }
      have hp : m.pollBalanceChanged E mgr lockMain lockWallet nBestHeight =
          (if m.transactionTableModel then
            ((({ m with cachedNumBlocks := nBestHeight }).checkBalanceChanged E mgr).1,
             (({ m with cachedNumBlocks := nBestHeight }).checkBalanceChanged E mgr).2 ++
               [Event.updateConfirmations])
           else ({ m with cachedNumBlocks := nBestHeight }).checkBalanceChanged E mgr) := by
        simp only [WalletModel.pollBalanceChanged, h1, h2, Bool.not_true, Bool.false_eq_true,
          if_false, ne_eq, hne, not_false_eq_true, if_true, hfr.2.2]
      rw [hp]
      by_cases htm : m.transactionTableModel = true
      · simp only [if_pos htm, true_and, and_true]
        exact hfr.2.1
      · simp only [if_neg htm, List.append_nil, true_and, and_true]
        exact hfr.2.1

/-- C10 at concrete inputs: a failed wallet try-lock at a new height changes
nothing; with both locks the new height 5 is cached. -/
theorem pollBalanceChanged_skips_on_contention_witness :
    (newModel (demoWallet 100)).pollBalanceChanged (demoEngine true) [] true false 5
      = (newModel (demoWallet 100), []) ∧
    ((newModel (demoWallet 100)).pollBalanceChanged (demoEngine true) [] true true 5).1.cachedNumBlocks
      = 5 :=
  ⟨(pollBalanceChanged_skips_on_contention (demoEngine true) [] true false 5
      (newModel (demoWallet 100))).1 (Or.inr rfl),
   (((pollBalanceChanged_skips_on_contention (demoEngine true) [] true true 5
      (newModel (demoWallet 100))).2 rfl rfl).2 (by decide)).2.1⟩

/-! ### C8, C9: `UnlockContext` -/

/-- C8. Destroying a context with `valid` and `relock` set invokes the
engine's `Lock`, and, when the wallet is encrypted and `Lock` leaves an
encrypted wallet encrypted and locked, the encryption status afterwards is
`Locked`.  Destroying a context with `relock` or `valid` unset returns the
model unchanged with an empty trace: no lock operation, same encryption
status. -/
theorem unlockContext_destroy_relocks (E : Engine κ) (m : WalletModel κ) (ctx : UnlockContext) :
    (ctx.valid = true → ctx.relock = true →
      Event.Lock ∈ (ctx.destroy E m).2 ∧
      ((∀ w, E.IsCrypted w = true →
          E.IsCrypted (E.Lock w).2 = true ∧ E.IsLocked (E.Lock w).2 = true) →
        E.IsCrypted m.wallet = true →
        (ctx.destroy E m).1.getEncryptionStatus E = EncryptionStatus.Locked)) ∧
    ((ctx.relock = false ∨ ctx.valid = false) →
      ctx.destroy E m = (m, []) ∧ Event.Lock ∉ (ctx.destroy E m).2 ∧
      (ctx.destroy E m).1.getEncryptionStatus E = m.getEncryptionStatus E) := by
  refine ⟨?_, ?_⟩
  · intro hv hr
    have hw : (ctx.destroy E m).1.wallet = (E.Lock m.wallet).2 := by
      unfold UnlockContext.destroy WalletModel.setWalletLocked
      simp only [hv, hr, Bool.and_self, if_true]
      split_ifs <;> rfl
    refine ⟨?_, ?_⟩
    · unfold UnlockContext.destroy WalletModel.setWalletLocked
      simp only [hv, hr, Bool.and_self, if_true]
      split_ifs <;> simp
    · intro hlock hc
      have h := hlock m.wallet hc
      unfold WalletModel.getEncryptionStatus
      rw [hw]
      simp [h.1, h.2]
  · intro h
    have hd : ctx.destroy E m = (m, []) := by
      unfold UnlockContext.destroy
      rcases h with h | h <;> simp [h]
    rw [hd]
    exact ⟨rfl, by simp, rfl⟩

/-- C8 at a concrete input: an unlocked encrypted demo wallet is locked again
by the destructor of a valid relocking context, and left unlocked by one that
does not relock. -/
theorem unlockContext_destroy_relocks_witness :
    ((UnlockContext.mk true true).destroy (demoEngine true)
        (newModel (demoWallet 100))).1.getEncryptionStatus (demoEngine true)
      = EncryptionStatus.Locked ∧
    (UnlockContext.mk true false).destroy (demoEngine true) (newModel (demoWallet 100))
      = (newModel (demoWallet 100), []) :=
  ⟨((unlockContext_destroy_relocks (demoEngine true) (newModel (demoWallet 100))
      (UnlockContext.mk true true)).1 rfl rfl).2
      (by
        intro w hw
        simp only [demoEngine] at hw ⊢
        simp [hw])
      (by decide),
   ((unlockContext_destroy_relocks (demoEngine true) (newModel (demoWallet 100))
      (UnlockContext.mk true false)).2 (Or.inl rfl)).1⟩

/-- The number of `Lock` calls made by a destructor. -/
theorem destroy_lock_count (E : Engine κ) (m : WalletModel κ)
    (ctx : UnlockContext) :
    (ctx.destroy E m).2.count Event.Lock = if ctx.valid && ctx.relock then 1 else 0 := by
  unfold UnlockContext.destroy WalletModel.setWalletLocked
  by_cases h : (ctx.valid && ctx.relock) = true
  · simp only [h, if_true]
    split_ifs
    · show List.count Event.Lock
        [Event.Lock, Event.StopStaking, Event.MilliSleep 1000, Event.RestartStakeMiner] = 1
      decide
    · show List.count Event.Lock [Event.Lock] = 1
      decide
  · simp only [h, if_false]
    rfl

/-- The model a destructor leaves: the engine's `Lock` applied to the wallet
when the context is valid with `relock` set, the model as it was otherwise. -/
theorem destroy_model (E : Engine κ) (m : WalletModel κ) (ctx : UnlockContext) :
    (ctx.destroy E m).1 =
      (if ctx.valid && ctx.relock then { m with wallet := (E.Lock m.wallet).2 } else m) := by
  unfold UnlockContext.destroy
  by_cases h : (ctx.valid && ctx.relock) = true
  · rw [if_pos h, if_pos h]
    unfold WalletModel.setWalletLocked
    simp only [if_true]
    split_ifs <;> rfl
  · rw [if_neg h, if_neg h]

/-- The destructor of a context whose `relock` is cleared does nothing. -/
theorem destroy_cleared (E : Engine κ) (m : WalletModel κ) (ctx : UnlockContext)
    (h : ctx.relock = false) : ctx.destroy E m = (m, []) := by
  unfold UnlockContext.destroy
  simp [h]

/-- C9. After `CopyFrom` the destination carries the source's former `valid`
and `relock`, and the source keeps `valid` with `relock` cleared.  Destroying
the source then does nothing, and destroying the destination applies the
engine's `Lock` to the wallet when the source was valid with `relock` set and
leaves the model as it was otherwise.  So destroying the two contexts, in
either order, calls `Lock` once when the source was valid with `relock` set
and not at all otherwise, and the model left behind is the one with `Lock`
applied once to the wallet, respectively the model as it was; with an
encrypted wallet that `Lock` leaves encrypted and locked, the status after
both destructors is then `Locked`. -/
theorem unlockContext_copyFrom (E : Engine κ) (m : WalletModel κ) (dst src : UnlockContext) :
    (dst.CopyFrom src).1.valid = src.valid ∧
    (dst.CopyFrom src).1.relock = src.relock ∧
    (dst.CopyFrom src).2.valid = src.valid ∧
    (dst.CopyFrom src).2.relock = false ∧
    (((dst.CopyFrom src).2.destroy E m).2 ++
      ((dst.CopyFrom src).1.destroy E ((dst.CopyFrom src).2.destroy E m).1).2).count Event.Lock
      = (if src.valid && src.relock then 1 else 0) ∧
    (((dst.CopyFrom src).1.destroy E m).2 ++
      ((dst.CopyFrom src).2.destroy E ((dst.CopyFrom src).1.destroy E m).1).2).count Event.Lock
      = (if src.valid && src.relock then 1 else 0) ∧
    (dst.CopyFrom src).2.destroy E m = (m, []) ∧
    ((dst.CopyFrom src).1.destroy E m).1 =
      (if src.valid && src.relock then { m with wallet := (E.Lock m.wallet).2 } else m) ∧
    ((dst.CopyFrom src).1.destroy E ((dst.CopyFrom src).2.destroy E m).1).1 =
      (if src.valid && src.relock then { m with wallet := (E.Lock m.wallet).2 } else m) ∧
    ((dst.CopyFrom src).2.destroy E ((dst.CopyFrom src).1.destroy E m).1).1 =
      (if src.valid && src.relock then { m with wallet := (E.Lock m.wallet).2 } else m) ∧
    (src.valid = true → src.relock = true →
      (∀ w, E.IsCrypted w = true →
        E.IsCrypted (E.Lock w).2 = true ∧ E.IsLocked (E.Lock w).2 = true) →
      E.IsCrypted m.wallet = true →
      ((dst.CopyFrom src).1.destroy E
          ((dst.CopyFrom src).2.destroy E m).1).1.getEncryptionStatus E
        = EncryptionStatus.Locked ∧
      ((dst.CopyFrom src).2.destroy E
          ((dst.CopyFrom src).1.destroy E m).1).1.getEncryptionStatus E
        = EncryptionStatus.Locked) := by
  have hsrc : ∀ x : WalletModel κ, (dst.CopyFrom src).2.destroy E x = (x, []) :=
    fun x => destroy_cleared E x _ rfl
  have hdst : ∀ x : WalletModel κ, ((dst.CopyFrom src).1.destroy E x).1 =
      (if src.valid && src.relock then { x with wallet := (E.Lock x.wallet).2 } else x) :=
    fun x => destroy_model E x _
  have h9 : ((dst.CopyFrom src).1.destroy E ((dst.CopyFrom src).2.destroy E m).1).1 =
      (if src.valid && src.relock then { m with wallet := (E.Lock m.wallet).2 } else m) := by
    rw [hsrc m]
    exact hdst m
  have h10 : ((dst.CopyFrom src).2.destroy E ((dst.CopyFrom src).1.destroy E m).1).1 =
      (if src.valid && src.relock then { m with wallet := (E.Lock m.wallet).2 } else m) := by
    rw [hsrc]
    exact hdst m
  refine ⟨rfl, rfl, rfl, rfl, ?_, ?_, hsrc m, hdst m, h9, h10, ?_⟩
  · rw [List.count_append, destroy_lock_count, destroy_lock_count]
    simp [UnlockContext.CopyFrom]
  · rw [List.count_append, destroy_lock_count, destroy_lock_count]
    simp [UnlockContext.CopyFrom]
  · intro hv hr hlock hc
    have hl := hlock m.wallet hc
    rw [h9, h10]
    simp only [hv, hr, Bool.and_self, if_true, and_self]
    unfold WalletModel.getEncryptionStatus
    simp [hl.1, hl.2]

/-- C9 at concrete inputs: on an unlocked encrypted demo wallet, a valid
relocking context copied to a new owner leaves the wallet `Locked` once both
are destroyed, the source's destructor having done nothing. -/
theorem unlockContext_copyFrom_witness :
    (((UnlockContext.mk false false).CopyFrom (UnlockContext.mk true true)).1.destroy
        (demoEngine true)
        (((UnlockContext.mk false false).CopyFrom (UnlockContext.mk true true)).2.destroy
          (demoEngine true) (newModel (demoWallet 100))).1).1.getEncryptionStatus (demoEngine true)
      = EncryptionStatus.Locked :=
  ((unlockContext_copyFrom (demoEngine true) (newModel (demoWallet 100))
      (UnlockContext.mk false false) (UnlockContext.mk true true)).2.2.2.2.2.2.2.2.2.2
      rfl rfl
      (by
        intro w hw
        simp only [demoEngine] at hw ⊢
        simp [hw])
      (by decide)).1

/-! ### C7: change is grouped under the funding address -/

theorem mapFind_pushBack_self (mp : List (String × List COutput)) (key : String)
    (out : COutput) : out ∈ mapFind (mapPushBack mp key out) key := by
  induction mp with
  | nil => simp [mapFind, mapPushBack, List.lookup]
  | cons p rest ih =>
    obtain ⟨k, v⟩ := p
    unfold mapPushBack
    by_cases hk : k = key
    · subst hk
      simp [mapFind, List.lookup]
    · have hk2 : (key == k) = false := by
        simpa using fun h : key = k => hk h.symm
      simp only [hk, if_false, mapFind, List.lookup, hk2]
      exact ih

theorem mapFind_pushBack_mono (mp : List (String × List COutput)) (key key2 : String)
    (out x : COutput) (h : x ∈ mapFind mp key) :
    x ∈ mapFind (mapPushBack mp key2 out) key := by
  induction mp with
  | nil => simp [mapFind, List.lookup] at h
  | cons p rest ih =>
    obtain ⟨k, v⟩ := p
    unfold mapPushBack
    by_cases hk : k = key2
    · subst hk
      simp only [if_true, mapFind, List.lookup] at h ⊢
      by_cases hkk : (key == k) = true
      · simp only [hkk] at h ⊢
        simp only [Option.getD_some] at h ⊢
        exact List.mem_append_left _ h
      · have hkf : (key == k) = false := by simpa using hkk
        simp only [hkf] at h ⊢
        exact h
    · simp only [hk, if_false, mapFind, List.lookup] at h ⊢
      by_cases hkk : (key == k) = true
      · simp only [hkk] at h ⊢
        exact h
      · have hkf : (key == k) = false := by simpa using hkk
        simp only [hkf] at h ⊢
        exact ih h

/-- A finished walk ends at an output whose index lies inside `vout`. -/
theorem resolveChange_index (E : Engine κ) (m : WalletModel κ) (fuel : Nat) (c r : COutput)
    (h : m.resolveChange E fuel c = .ok r) : ∃ txout, r.tx.vout[r.i]? = some txout := by
  induction fuel generalizing c with
  | zero => simp [WalletModel.resolveChange] at h
  | succ f ih =>
    unfold WalletModel.resolveChange at h
    cases hv : c.tx.vout[c.i]? with
    | none => simp [hv] at h
    | some txout =>
      simp only [hv] at h
      by_cases hch : E.IsChange m.wallet txout = true
      · simp only [hch, if_true] at h
        cases hvin : c.tx.vin with
        | nil =>
          simp only [hvin] at h
          cases h
          exact ⟨txout, hv⟩
        | cons vin0 rest =>
          simp only [hvin] at h
          by_cases hmine : E.IsMine m.wallet vin0 = true
          · simp only [hmine, if_true] at h
            cases hl : m.wallet.mapWallet.lookup vin0.prevout.hash with
            | none =>
              simp only [hl] at h
              cases h
              exact ⟨txout, hv⟩
            | some prev =>
              simp only [hl] at h
              exact ih _ h
          · simp only [hmine, if_false] at h
            cases h
            exact ⟨txout, hv⟩
      · simp only [hch, if_false] at h
        cases h
        exact ⟨txout, hv⟩

/-- Along a change chain the walk ends at the last output of the chain, which
is not change and pays to `A`, once the fuel covers the chain. -/
theorem resolveChange_chain (E : Engine κ) (m : WalletModel κ) (A : CTxDestination)
    (chain : List COutput) (o : COutput) (fuel : Nat)
    (h : changeChain E m.wallet A (o :: chain) = true) (hf : chain.length + 1 ≤ fuel) :
    m.resolveChange E fuel o = .ok ((o :: chain).getLast (List.cons_ne_nil _ _)) ∧
    ∃ txout, ((o :: chain).getLast (List.cons_ne_nil _ _)).tx.vout[
        ((o :: chain).getLast (List.cons_ne_nil _ _)).i]? = some txout ∧
      E.ExtractDestination txout.scriptPubKey = some A := by
  induction chain generalizing o fuel with
  | nil =>
    obtain ⟨f, rfl⟩ : ∃ f, fuel = f + 1 := ⟨fuel - 1, by simp at hf; omega⟩
    unfold changeChain at h
    cases hv : o.tx.vout[o.i]? with
    | none => simp [hv] at h
    | some txout =>
      simp only [hv, Bool.and_eq_true, Bool.not_eq_true', decide_eq_true_eq] at h
      refine ⟨?_, txout, by simpa using hv, h.2⟩
      unfold WalletModel.resolveChange
      simp [hv, h.1]
  | cons prev rest ih =>
    obtain ⟨f, rfl⟩ : ∃ f, fuel = f + 1 := ⟨fuel - 1, by simp at hf; omega⟩
    unfold changeChain at h
    simp only [Bool.and_eq_true] at h
    obtain ⟨hlink, hrest⟩ := h
    have hf2 : rest.length + 1 ≤ f := by simp at hf; omega
    have hih := ih prev f hrest hf2
    unfold changeLink at hlink
    cases hv : o.tx.vout[o.i]? with
    | none => simp [hv] at hlink
    | some txout =>
      cases hvin : o.tx.vin with
      | nil => simp [hv, hvin] at hlink
      | cons vin0 vrest =>
        simp only [hv, hvin, Bool.and_eq_true] at hlink
        obtain ⟨⟨hch, hmine⟩, hl⟩ := hlink
        cases hlk : m.wallet.mapWallet.lookup vin0.prevout.hash with
        | none => simp [hlk] at hl
        | some tx =>
          simp only [hlk, decide_eq_true_eq] at hl
          have hstep : m.resolveChange E (f + 1) o = m.resolveChange E f prev := by
            conv_lhs => unfold WalletModel.resolveChange
            simp only [hv, hch, if_true, hvin, hmine, hlk]
            rw [hl]
          rw [hstep]
          simpa using hih

theorem listCoinsLoop_mono (E : Engine κ) (m : WalletModel κ) (fuel : Nat)
    (coins : List COutput) (mp mp2 : List (String × List COutput)) (x : COutput) (key : String)
    (h : m.listCoinsLoop E fuel coins mp = .ok mp2) (hx : x ∈ mapFind mp key) :
    x ∈ mapFind mp2 key := by
  induction coins generalizing mp with
  | nil =>
    simp only [WalletModel.listCoinsLoop] at h
    cases h
    exact hx
  | cons c rest ih =>
    unfold WalletModel.listCoinsLoop at h
    cases hr : m.resolveChange E fuel c with
    | error e => simp [hr] at h
    | ok cout =>
      simp only [hr] at h
      cases hv : cout.tx.vout[cout.i]? with
      | none => simp [hv] at h
      | some txout =>
        simp only [hv] at h
        cases hd : E.ExtractDestination txout.scriptPubKey with
        | none =>
          simp only [hd] at h
          exact ih mp h hx
        | some address =>
          simp only [hd] at h
          exact ih _ h (mapFind_pushBack_mono mp key _ c x hx)

theorem listCoinsLoop_places (E : Engine κ) (m : WalletModel κ) (fuel : Nat)
    (coins : List COutput) (mp mp2 : List (String × List COutput)) (O o1 : COutput)
    (txout : CTxOut) (A : CTxDestination) (hO : O ∈ coins)
    (hres : m.resolveChange E fuel O = .ok o1) (hv1 : o1.tx.vout[o1.i]? = some txout)
    (hA : E.ExtractDestination txout.scriptPubKey = some A)
    (h : m.listCoinsLoop E fuel coins mp = .ok mp2) :
    O ∈ mapFind mp2 (E.ToString A) := by
  induction coins generalizing mp with
  | nil => cases hO
  | cons c rest ih =>
    unfold WalletModel.listCoinsLoop at h
    rcases List.mem_cons.mp hO with rfl | hin
    · simp only [hres, hv1, hA] at h
      exact listCoinsLoop_mono E m fuel rest _ mp2 O _ h (mapFind_pushBack_self mp _ O)
    · cases hr : m.resolveChange E fuel c with
      | error e => simp [hr] at h
      | ok cout =>
        simp only [hr] at h
        cases hv : cout.tx.vout[cout.i]? with
        | none => simp [hv] at h
        | some txo =>
          simp only [hv] at h
          cases hd : E.ExtractDestination txo.scriptPubKey with
          | none =>
            simp only [hd] at h
            exact ih mp hin h
          | some address =>
            simp only [hd] at h
            exact ih _ hin h

theorem listCoinsLoop_total (E : Engine κ) (m : WalletModel κ) (fuel : Nat)
    (coins : List COutput) (mp : List (String × List COutput))
    (h : ∀ c ∈ coins, ∃ r, m.resolveChange E fuel c = .ok r) :
    ∃ mp2, m.listCoinsLoop E fuel coins mp = .ok mp2 := by
  induction coins generalizing mp with
  | nil => exact ⟨mp, rfl⟩
  | cons c rest ih =>
    obtain ⟨r, hr⟩ := h c (List.mem_cons_self _ _)
    obtain ⟨txout, hv⟩ := resolveChange_index E m fuel c r hr
    have hrest : ∀ x ∈ rest, ∃ r, m.resolveChange E fuel x = .ok r :=
      fun x hx => h x (List.mem_cons_of_mem _ hx)
    unfold WalletModel.listCoinsLoop
    simp only [hr, hv]
    cases hd : E.ExtractDestination txout.scriptPubKey with
    | none => exact ih mp hrest
    | some address => exact ih _ hrest

/-- C7. Let `O` be an available output heading a change chain
`O = On, ..., O1`: every output but the last is change, the first input of its
transaction is wallet-owned and references the next output in a transaction
of the wallet record, and `O1` is not change and pays to `A`.  With fuel
covering the chain the walk from `O` ends at `O1`; and whenever the walks of
the other available outputs finish within the fuel, `listCoins` returns a map
in which `O` itself is stored under the address string of `A`. -/
theorem listCoins_change_attributed (E : Engine κ) (m : WalletModel κ) (O : COutput)
    (chain : List COutput) (A : CTxDestination) (fuel : Nat)
    (mapCoins : List (String × List COutput))
    (hchain : changeChain E m.wallet A (O :: chain) = true)
    (hmem : O ∈ E.AvailableCoins m.wallet true none)
    (hfuel : chain.length + 1 ≤ fuel)
    (hothers : ∀ c ∈ E.AvailableCoins m.wallet true none, c ≠ O →
      ∃ r, m.resolveChange E fuel c = .ok r) :
    m.resolveChange E fuel O = .ok ((O :: chain).getLast (List.cons_ne_nil _ _)) ∧
    ∃ result, m.listCoins E fuel mapCoins = .ok result ∧ O ∈ mapFind result (E.ToString A) := by
  obtain ⟨hres, txout, hv, hA⟩ := resolveChange_chain E m A chain O fuel hchain hfuel
  refine ⟨hres, ?_⟩
  have hall : ∀ c ∈ m.listCoinsInput E, ∃ r, m.resolveChange E fuel c = .ok r := by
    intro c hc
    by_cases hco : c = O
    · subst hco
      exact ⟨_, hres⟩
    · exact hothers c hc hco
  obtain ⟨result, hresult⟩ := listCoinsLoop_total E m fuel (m.listCoinsInput E) mapCoins hall
  exact ⟨result, hresult,
    listCoinsLoop_places E m fuel _ mapCoins result O _ txout A hmem hres hv hA hresult⟩

/-- C7 at the spec example: `O1` (not change, key 7), `O2` (change spent from
`O1`), `O3` (change spent from `O2`); `O3` is grouped under the address of
key 7. -/
theorem listCoins_change_attributed_witness :
    ∃ result, (newModel demoChainWallet).listCoins (demoEngine true) 3 [] = .ok result ∧
      (⟨demoTx3, 0, 3⟩ : COutput) ∈
        mapFind result ((demoEngine true).ToString (CTxDestination.CKeyID 7)) :=
  (listCoins_change_attributed (demoEngine true) (newModel demoChainWallet) ⟨demoTx3, 0, 3⟩
    [⟨demoTx2, 0, 0⟩, ⟨demoTx1, 0, 0⟩] (CTxDestination.CKeyID 7) 3 []
    (by decide) (by decide) (by decide)
    (by
      intro c hc hne
      have hc2 : c = ⟨demoTx3, 0, 3⟩ ∨ c = ⟨demoTx4, 0, 6⟩ := by
        simpa [demoEngine, newModel, demoChainWallet] using hc
      rcases hc2 with rfl | rfl
      · exact absurd rfl hne
      · exact ⟨⟨demoTx4, 0, 6⟩, rfl⟩)).2

/-! ### C11: `requestUnlock` -/

/-- The forced lock emits no `requireUnlock`. -/
theorem setWalletLocked_no_requireUnlock (E : Engine κ) (m : WalletModel κ) (locked : Bool)
    (passPhrase : String) (formint : Bool) :
    Event.requireUnlock ∉ (m.setWalletLocked E locked passPhrase formint).2.2 := by
  unfold WalletModel.setWalletLocked
  cases locked <;> cases formint <;> simp
  all_goals split_ifs <;> simp

/-- `requestUnlock` in terms of the entry model and `was_locked`. -/
theorem requestUnlock_eq (E : Engine κ) (h : WalletModel κ → WalletModel κ)
    (m : WalletModel κ) :
    (m.requestUnlock E h).2.1 =
      (if requestUnlockWasLocked E m = true then h (requestUnlockEntry E m)
       else requestUnlockEntry E m) ∧
    (m.requestUnlock E h).1.valid =
      decide ((m.requestUnlock E h).2.1.getEncryptionStatus E ≠ EncryptionStatus.Locked) ∧
    (m.requestUnlock E h).1.relock =
      (requestUnlockWasLocked E m && !(m.requestUnlock E h).2.1.wallet.fWalletUnlockMintOnly) ∧
    (Event.requireUnlock ∈ (m.requestUnlock E h).2.2 ↔ requestUnlockWasLocked E m = true) := by
  have hno := setWalletLocked_no_requireUnlock E m true "" E.formintDefault
  by_cases hs : m.getEncryptionStatus E = EncryptionStatus.Locked
  · have he : requestUnlockEntry E m = m := by
      simp [requestUnlockEntry, hs]
    have hw : requestUnlockWasLocked E m = true := by
      simp [requestUnlockWasLocked, he, hs]
    rw [hw, he]
    refine ⟨?_, ?_, ?_, ?_⟩
    · simp [WalletModel.requestUnlock, hs]
    · simp [WalletModel.requestUnlock, hs]
    · simp [WalletModel.requestUnlock, hs]
    · simp [WalletModel.requestUnlock, hs, hno]
      split_ifs <;> simp
  · by_cases hf : m.wallet.fWalletUnlockMintOnly = true
    · have he : requestUnlockEntry E m = (m.setWalletLocked E true "" E.formintDefault).2.1 := by
        simp [requestUnlockEntry, hs, hf]
      by_cases hw : requestUnlockWasLocked E m = true
      · have hw2 : (m.setWalletLocked E true "" E.formintDefault).2.1.getEncryptionStatus E
            = EncryptionStatus.Locked := by
          simpa [requestUnlockWasLocked, he] using hw
        rw [hw, he]
        refine ⟨?_, ?_, ?_, ?_⟩
        · simp [WalletModel.requestUnlock, hs, hf, hw2]
        · simp [WalletModel.requestUnlock, hs, hf, hw2]
        · simp [WalletModel.requestUnlock, hs, hf, hw2]
        · simp [WalletModel.requestUnlock, hs, hf, hw2, hno]
          split_ifs <;> simp
      · have hw2 : ¬ (m.setWalletLocked E true "" E.formintDefault).2.1.getEncryptionStatus E
            = EncryptionStatus.Locked := by
          simpa [requestUnlockWasLocked, he] using hw
        have hwf : requestUnlockWasLocked E m = false := by simpa using hw
        rw [hwf, he]
        refine ⟨?_, ?_, ?_, ?_⟩
        · simp [WalletModel.requestUnlock, hs, hf, hw2]
        · simp [WalletModel.requestUnlock, hs, hf, hw2]
        · simp [WalletModel.requestUnlock, hs, hf, hw2]
        · simp [WalletModel.requestUnlock, hs, hf, hw2, hno]
    · have hff : m.wallet.fWalletUnlockMintOnly = false := by simpa using hf
      have he : requestUnlockEntry E m = m := by
        simp [requestUnlockEntry, hff]
      have hwf : requestUnlockWasLocked E m = false := by
        simp [requestUnlockWasLocked, he, hs]
      rw [hwf, he]
      refine ⟨?_, ?_, ?_, ?_⟩
      · simp [WalletModel.requestUnlock, hs, hff]
      · simp [WalletModel.requestUnlock, hs, hff]
      · simp [WalletModel.requestUnlock, hs, hff]
      · simp [WalletModel.requestUnlock, hs, hff, hno]

/-- C11. Let `wasLocked` be the encryption status read at entry being
`Locked`, re-read after the forced `setWalletLocked(true)` when at entry the
wallet was not locked and in staking-only mode.  `requestUnlock` raises
`requireUnlock` exactly when `wasLocked` holds, and the model it leaves is the
one the request produced (or the entry model when none was raised).  The
returned context has `valid` set exactly when the encryption status of that
model is not `Locked`, and `relock` equal to `wasLocked` and not
`fWalletUnlockMintOnly`, the flag being read on that model; when neither the
forced lock nor the request changes the flag, that is the flag at entry. -/
theorem requestUnlock_context (E : Engine κ) (onRequireUnlock : WalletModel κ → WalletModel κ)
    (m : WalletModel κ) :
    (m.requestUnlock E onRequireUnlock).2.1 =
      (if requestUnlockWasLocked E m = true then onRequireUnlock (requestUnlockEntry E m)
       else requestUnlockEntry E m) ∧
    ((m.requestUnlock E onRequireUnlock).1.valid = true ↔
      (m.requestUnlock E onRequireUnlock).2.1.getEncryptionStatus E ≠ EncryptionStatus.Locked) ∧
    (m.requestUnlock E onRequireUnlock).1.relock =
      (requestUnlockWasLocked E m &&
        !(m.requestUnlock E onRequireUnlock).2.1.wallet.fWalletUnlockMintOnly) ∧
    (Event.requireUnlock ∈ (m.requestUnlock E onRequireUnlock).2.2 ↔
      requestUnlockWasLocked E m = true) ∧
    ((requestUnlockEntry E m).wallet.fWalletUnlockMintOnly = m.wallet.fWalletUnlockMintOnly →
      (∀ x, (onRequireUnlock x).wallet.fWalletUnlockMintOnly = x.wallet.fWalletUnlockMintOnly) →
      (m.requestUnlock E onRequireUnlock).1.relock =
        (requestUnlockWasLocked E m && !m.wallet.fWalletUnlockMintOnly)) := by
  obtain ⟨h1, h2, h3, h4⟩ := requestUnlock_eq E onRequireUnlock m
  refine ⟨h1, ?_, h3, h4, ?_⟩
  · rw [h2]
    simp
  · intro hentry hdialog
    rw [h3, h1]
    by_cases hw : requestUnlockWasLocked E m = true
    · simp only [hw, if_true, hdialog, hentry]
    · have hwf : requestUnlockWasLocked E m = false := by simpa using hw
      simp only [hwf, Bool.false_and]

/-- C11 at concrete inputs: a locked wallet whose dialog unlocks it gives a
valid context that relocks; a wallet unlocked for staking only is locked
first, the request is raised, and the context does not relock. -/
theorem requestUnlock_context_witness :
    ((newModel demoLockedWallet).requestUnlock (demoEngine true) demoUnlockDialog).1.relock
      = true ∧
    ((newModel demoLockedWallet).requestUnlock (demoEngine true) demoUnlockDialog).1.valid
      = true ∧
    Event.requireUnlock ∈
      ((newModel demoStakingWallet).requestUnlock (demoEngine true) demoUnlockDialog).2.2 :=
  ⟨(requestUnlock_context (demoEngine true) demoUnlockDialog (newModel demoLockedWallet)).2.2.2.2
      rfl (by
        intro x
        simp [demoUnlockDialog, WalletModel.setWalletLocked, demoEngine]),
   (requestUnlock_context (demoEngine true) demoUnlockDialog
      (newModel demoLockedWallet)).2.1.mpr (by decide),
   (requestUnlock_context (demoEngine true) demoUnlockDialog
      (newModel demoStakingWallet)).2.2.2.1.mpr (by decide)⟩

/-! ### C12: the change walk has no bound of its own -/

/-- One unfolding of the walk. -/
theorem resolveChange_succ (E : Engine κ) (m : WalletModel κ) (f : Nat) (c : COutput) :
    m.resolveChange E (f + 1) c =
      (match m.walkStep E c with
       | WalkStep.stop => .ok c
       | WalkStep.bad => .error WalkError.badIndex
       | WalkStep.next c2 => m.resolveChange E f c2) := by
  rw [WalletModel.resolveChange]
  unfold WalletModel.walkStep
  cases hv : c.tx.vout[c.i]? with
  | none => rfl
  | some txout =>
    simp only []
    by_cases hch : E.IsChange m.wallet txout = true
    · simp only [hch, if_true]
      cases hvin : c.tx.vin with
      | nil => rfl
      | cons vin0 rest =>
        simp only []
        by_cases hmine : E.IsMine m.wallet vin0 = true
        · simp only [hmine, if_true]
          cases hl : m.wallet.mapWallet.lookup vin0.prevout.hash with
          | none => rfl
          | some prev => rfl
        · simp [hmine]
    · simp [hch]

theorem walkStep_stop (E : Engine κ) (m : WalletModel κ) (r : COutput)
    (h : m.walkStep E r = WalkStep.stop) : walkEndsAt E m.wallet r := by
  unfold WalletModel.walkStep at h
  cases hv : r.tx.vout[r.i]? with
  | none => simp [hv] at h
  | some txout =>
    refine ⟨txout, hv, ?_⟩
    simp only [hv] at h
    by_cases hch : E.IsChange m.wallet txout = true
    · simp only [hch, if_true] at h
      right
      cases hvin : r.tx.vin with
      | nil => exact Or.inl rfl
      | cons vin0 rest =>
        right
        refine ⟨vin0, rest, rfl, ?_⟩
        simp only [hvin] at h
        by_cases hmine : E.IsMine m.wallet vin0 = true
        · simp only [hmine, if_true] at h
          right
          cases hl : m.wallet.mapWallet.lookup vin0.prevout.hash with
          | none => rfl
          | some prev => simp [hl] at h
        · left
          simpa using hmine
    · left
      simpa using hch

/-- A finished walk ends where the loop leaves. -/
theorem resolveChange_ok_stop (E : Engine κ) (m : WalletModel κ) (f : Nat) (c r : COutput)
    (h : m.resolveChange E f c = .ok r) : m.walkStep E r = WalkStep.stop := by
  induction f generalizing c with
  | zero => simp [WalletModel.resolveChange] at h
  | succ f ih =>
    rw [resolveChange_succ] at h
    cases hs : m.walkStep E c with
    | stop =>
      simp only [hs] at h
      cases h
      exact hs
    | bad => simp [hs] at h
    | next c2 =>
      simp only [hs] at h
      exact ih c2 h

/-- More fuel does not change a result that is not `outOfFuel`. -/
theorem resolveChange_mono (E : Engine κ) (m : WalletModel κ) (f f2 : Nat) (c : COutput)
    (res : Except WalkError COutput) (h : m.resolveChange E f c = res)
    (hne : res ≠ .error WalkError.outOfFuel) (hle : f ≤ f2) :
    m.resolveChange E f2 c = res := by
  induction f generalizing c f2 with
  | zero =>
    simp only [WalletModel.resolveChange] at h
    exact absurd h.symm hne
  | succ f ih =>
    obtain ⟨g, rfl⟩ : ∃ g, f2 = g + 1 := ⟨f2 - 1, by omega⟩
    rw [resolveChange_succ] at h ⊢
    cases hs : m.walkStep E c with
    | stop => simpa [hs] using h
    | bad => simpa [hs] using h
    | next c2 =>
      simp only [hs] at h ⊢
      exact ih g c2 h (by omega)

theorem walkIter_succ_some (E : Engine κ) (m : WalletModel κ) (n : Nat) (c y : COutput)
    (h : m.walkIter E (n + 1) c = some y) :
    ∃ c2, m.walkStep E c = WalkStep.next c2 ∧ m.walkIter E n c2 = some y := by
  rw [WalletModel.walkIter] at h
  cases hs : m.walkStep E c with
  | stop => simp [hs] at h
  | bad => simp [hs] at h
  | next c2 =>
    simp only [hs] at h
    exact ⟨c2, rfl, h⟩

theorem walkIter_next (E : Engine κ) (m : WalletModel κ) (n : Nat) (c c2 : COutput)
    (hs : m.walkStep E c = WalkStep.next c2) :
    m.walkIter E (n + 1) c = m.walkIter E n c2 := by
  rw [WalletModel.walkIter]
  simp only [hs]

theorem walkIter_snoc (E : Engine κ) (m : WalletModel κ) (n : Nat) (c x x2 : COutput)
    (h : m.walkIter E n c = some x) (hs : m.walkStep E x = WalkStep.next x2) :
    m.walkIter E (n + 1) c = some x2 := by
  induction n generalizing c with
  | zero =>
    simp only [WalletModel.walkIter, Option.some.injEq] at h
    subst h
    rw [walkIter_next E m 0 c x2 hs]
    rfl
  | succ n ih =>
    obtain ⟨c2, hc, hrest⟩ := walkIter_succ_some E m n c x h
    rw [walkIter_next E m (n + 1) c c2 hc]
    exact ih c2 hrest

/-- After `n` passes the walk goes on as a walk from the output reached. -/
theorem resolveChange_walkIter (E : Engine κ) (m : WalletModel κ) (f n : Nat) (c c2 : COutput)
    (h : m.walkIter E n c = some c2) :
    m.resolveChange E (f + n) c = m.resolveChange E f c2 := by
  induction n generalizing c with
  | zero =>
    simp only [WalletModel.walkIter, Option.some.injEq] at h
    subst h
    rfl
  | succ n ih =>
    obtain ⟨c1, hc, hrest⟩ := walkIter_succ_some E m n c c2 h
    rw [← Nat.add_assoc, resolveChange_succ]
    simp only [hc]
    exact ih c1 hrest

/-- Fuel for no more passes than the walk makes is not enough. -/
theorem resolveChange_short (E : Engine κ) (m : WalletModel κ) (f n : Nat) (c c2 : COutput)
    (h : m.walkIter E n c = some c2) (hle : f ≤ n) :
    m.resolveChange E f c = .error WalkError.outOfFuel := by
  induction n generalizing c f with
  | zero =>
    obtain rfl : f = 0 := by omega
    rfl
  | succ n ih =>
    cases f with
    | zero => rfl
    | succ f =>
      obtain ⟨c1, hc, hrest⟩ := walkIter_succ_some E m n c c2 h
      rw [resolveChange_succ]
      simp only [hc]
      exact ih f c1 hrest (by omega)

theorem resolveChange_diverges_of_reach (E : Engine κ) (m : WalletModel κ) (n : Nat)
    (c c2 : COutput) (h : m.walkIter E n c = some c2)
    (hd : ∀ f, m.resolveChange E f c2 = .error WalkError.outOfFuel) (f : Nat) :
    m.resolveChange E f c = .error WalkError.outOfFuel := by
  by_cases hle : f ≤ n
  · exact resolveChange_short E m f n c c2 h hle
  · have hf : f = (f - n) + n := by omega
    rw [hf, resolveChange_walkIter E m (f - n) n c c2 h]
    exact hd _

/-- A walk that comes back to an output it has left never ends. -/
theorem resolveChange_cycle (E : Engine κ) (m : WalletModel κ) (d : Nat) (c : COutput)
    (h : m.walkIter E (d + 1) c = some c) (f : Nat) :
    m.resolveChange E f c = .error WalkError.outOfFuel := by
  induction f using Nat.strong_induction_on with
  | _ f ih =>
    by_cases hle : f ≤ d + 1
    · exact resolveChange_short E m f (d + 1) c c h hle
    · have hf : f = (f - (d + 1)) + (d + 1) := by omega
      rw [hf, resolveChange_walkIter E m (f - (d + 1)) (d + 1) c c h]
      exact ih (f - (d + 1)) (by omega)

/-- Running out of fuel means the walk made that many passes. -/
theorem walkIter_of_outOfFuel (E : Engine κ) (m : WalletModel κ) (f : Nat) (c : COutput)
    (h : m.resolveChange E f c = .error WalkError.outOfFuel) :
    ∃ y, m.walkIter E f c = some y := by
  induction f generalizing c with
  | zero => exact ⟨c, rfl⟩
  | succ f ih =>
    rw [resolveChange_succ] at h
    cases hs : m.walkStep E c with
    | stop => simp [hs] at h
    | bad => simp [hs] at h
    | next c2 =>
      simp only [hs] at h
      obtain ⟨y, hy⟩ := ih c2 h
      exact ⟨y, by rw [walkIter_next E m f c c2 hs]; exact hy⟩

/-- The output a pass goes on with is read off the transaction alone. -/
theorem walkStep_next (E : Engine κ) (m : WalletModel κ) (a a2 : COutput)
    (h : m.walkStep E a = WalkStep.next a2) :
    ∃ vin0 rest prev, a.tx.vin = vin0 :: rest ∧
      m.wallet.mapWallet.lookup vin0.prevout.hash = some prev ∧
      a2 = ⟨prev, vin0.prevout.n, 0⟩ := by
  unfold WalletModel.walkStep at h
  cases hv : a.tx.vout[a.i]? with
  | none => simp [hv] at h
  | some txout =>
    simp only [hv] at h
    by_cases hch : E.IsChange m.wallet txout = true
    · simp only [hch, if_true] at h
      cases hvin : a.tx.vin with
      | nil => simp [hvin] at h
      | cons vin0 rest =>
        simp only [hvin] at h
        by_cases hmine : E.IsMine m.wallet vin0 = true
        · simp only [hmine, if_true] at h
          cases hl : m.wallet.mapWallet.lookup vin0.prevout.hash with
          | none => simp [hl] at h
          | some prev =>
            simp only [hl, WalkStep.next.injEq] at h
            exact ⟨vin0, rest, prev, rfl, hl, h.symm⟩
        · simp [hmine] at h
    · simp [hch] at h

theorem walkStep_same_tx (E : Engine κ) (m : WalletModel κ) (a b a2 b2 : COutput)
    (ha : m.walkStep E a = WalkStep.next a2) (hb : m.walkStep E b = WalkStep.next b2)
    (htx : a.tx = b.tx) : a2 = b2 := by
  obtain ⟨v, r, p, hv, hp, rfl⟩ := walkStep_next E m a a2 ha
  obtain ⟨v2, r2, p2, hv2, hp2, rfl⟩ := walkStep_next E m b b2 hb
  rw [htx, hv2] at hv
  obtain ⟨rfl, _⟩ := List.cons.inj hv
  rw [hp2] at hp
  obtain rfl := Option.some.inj hp
  rfl

theorem lookup_mem_values (l : List (Nat × CWalletTx)) (k : Nat) (v : CWalletTx)
    (h : l.lookup k = some v) : v ∈ l.map Prod.snd := by
  induction l with
  | nil => simp [List.lookup] at h
  | cons p rest ih =>
    obtain ⟨k2, v2⟩ := p
    simp only [List.lookup] at h
    by_cases hk : (k == k2) = true
    · simp only [hk, Option.some.injEq] at h
      subst h
      simp
    · have hkf : (k == k2) = false := by simpa using hk
      simp only [hkf] at h
      simp only [List.map_cons, List.mem_cons]
      exact Or.inr (ih h)

theorem walkTrail_mem_values (E : Engine κ) (m : WalletModel κ) (n : Nat) (c x : COutput)
    (hx : x ∈ m.walkTrail E n c) : x.tx ∈ m.wallet.mapWallet.map Prod.snd := by
  induction n generalizing c with
  | zero => simp [WalletModel.walkTrail] at hx
  | succ n ih =>
    rw [WalletModel.walkTrail] at hx
    cases hs : m.walkStep E c with
    | stop => simp [hs] at hx
    | bad => simp [hs] at hx
    | next c2 =>
      simp only [hs, List.mem_cons] at hx
      rcases hx with rfl | hx
      · obtain ⟨v, r, p, _, hp, rfl⟩ := walkStep_next E m c x hs
        exact lookup_mem_values _ _ _ hp
      · exact ih c2 hx

theorem walkTrail_length (E : Engine κ) (m : WalletModel κ) (n : Nat) (c y : COutput)
    (h : m.walkIter E n c = some y) : (m.walkTrail E n c).length = n := by
  induction n generalizing c with
  | zero => rfl
  | succ n ih =>
    obtain ⟨c2, hc, hrest⟩ := walkIter_succ_some E m n c y h
    rw [WalletModel.walkTrail]
    simp only [hc, List.length_cons]
    rw [ih c2 hrest]

/-- An output of the trail is reached by the walk and left again, when the
walk makes one pass more than the trail records. -/
theorem walkTrail_mem (E : Engine κ) (m : WalletModel κ) (n : Nat) (c y x : COutput)
    (h : m.walkIter E (n + 1) c = some y) (hx : x ∈ m.walkTrail E n c) :
    ∃ d x2, m.walkIter E (d + 1) c = some x ∧ m.walkStep E x = WalkStep.next x2 := by
  induction n generalizing c with
  | zero => simp [WalletModel.walkTrail] at hx
  | succ n ih =>
    obtain ⟨c2, hc, hrest⟩ := walkIter_succ_some E m (n + 1) c y h
    rw [WalletModel.walkTrail] at hx
    simp only [hc, List.mem_cons] at hx
    rcases hx with rfl | hx
    · obtain ⟨x2, hx2, _⟩ := walkIter_succ_some E m n x y hrest
      refine ⟨0, x2, ?_, hx2⟩
      rw [walkIter_next E m 0 c x hc]
      rfl
    · obtain ⟨d, x2, hd, hx2⟩ := ih c2 hrest hx
      refine ⟨d + 1, x2, ?_, hx2⟩
      rw [walkIter_next E m (d + 1) c c2 hc]
      exact hd

/-- A walk that enters the same transaction twice and goes on after the
second time never ends. -/
theorem resolveChange_diverges_of_repeat (E : Engine κ) (m : WalletModel κ) (n : Nat)
    (c y : COutput) (h : m.walkIter E (n + 1) c = some y)
    (hdup : ¬ ((m.walkTrail E n c).map (fun x => x.tx)).Nodup) (f : Nat) :
    m.resolveChange E f c = .error WalkError.outOfFuel := by
  induction n generalizing c f with
  | zero => simp [WalletModel.walkTrail] at hdup
  | succ n ih =>
    obtain ⟨c1, hc, hrest⟩ := walkIter_succ_some E m (n + 1) c y h
    have h1 : m.walkIter E 1 c = some c1 := by
      rw [walkIter_next E m 0 c c1 hc]
      rfl
    rw [WalletModel.walkTrail] at hdup
    simp only [hc, List.map_cons, List.nodup_cons, not_and_or, not_not] at hdup
    rcases hdup with hmem | hnd
    · obtain ⟨x, hx, htx⟩ := List.mem_map.mp hmem
      obtain ⟨d, x2, hd, hx2⟩ := walkTrail_mem E m n c1 y x hrest hx
      obtain ⟨c2, hc2, _⟩ := walkIter_succ_some E m n c1 y hrest
      have heq : x2 = c2 := walkStep_same_tx E m x c1 x2 c2 hx2 hc2 htx
      rw [walkIter_next E m d c1 c2 hc2] at hd
      have hcyc : m.walkIter E (d + 1) c2 = some c2 := by
        have := walkIter_snoc E m d c2 x x2 hd hx2
        rw [heq] at this
        exact this
      have h12 : m.walkIter E 1 c1 = some c2 := by
        rw [walkIter_next E m 0 c1 c2 hc2]
        rfl
      exact resolveChange_diverges_of_reach E m 1 c c1 h1
        (resolveChange_diverges_of_reach E m 1 c1 c2 h12 (resolveChange_cycle E m d c2 hcyc)) f
    · exact resolveChange_diverges_of_reach E m 1 c c1 h1 (fun g => ih c1 hrest hnd g) f

/-- A walk still running after one pass more than the wallet record has
transactions never ends. -/
theorem resolveChange_never_of_long (E : Engine κ) (m : WalletModel κ) (c : COutput)
    (h : m.resolveChange E (m.wallet.mapWallet.length + 2) c = .error WalkError.outOfFuel)
    (f : Nat) : m.resolveChange E f c = .error WalkError.outOfFuel := by
  obtain ⟨y, hy⟩ := walkIter_of_outOfFuel E m _ c h
  have h1 : m.resolveChange E (m.wallet.mapWallet.length + 1) c = .error WalkError.outOfFuel := by
    by_contra hne
    have := resolveChange_mono E m (m.wallet.mapWallet.length + 1)
      (m.wallet.mapWallet.length + 2) c _ rfl hne (by omega)
    rw [h] at this
    exact hne this.symm
  obtain ⟨z, hz⟩ := walkIter_of_outOfFuel E m _ c h1
  have hlen := walkTrail_length E m (m.wallet.mapWallet.length + 1) c z hz
  apply resolveChange_diverges_of_repeat E m (m.wallet.mapWallet.length + 1) c y hy
  intro hnd
  have hsub : (m.walkTrail E (m.wallet.mapWallet.length + 1) c).map (fun x => x.tx) ⊆
      m.wallet.mapWallet.map Prod.snd := by
    intro t ht
    obtain ⟨x, hx, rfl⟩ := List.mem_map.mp ht
    exact walkTrail_mem_values E m _ c x hx
  have hle := (List.subperm_of_subset hnd hsub).length_le
  simp only [List.length_map, hlen] at hle
  omega

/-- C12 (amended). The walk of `listCoins` has no bound of its own.  For every
wallet record and every candidate output: a walk that ends does so where the
loop leaves (at an output that is not change, or whose transaction has no
input, or a first input that is not wallet-owned, or a first input whose
transaction is not in the wallet record), and it ends with the same output
for every fuel from the number of transactions in the wallet record plus 2
(at most that number plus 1 passes through the loop); and a walk still
running after that many passes never ends. -/
theorem resolveChange_ends_early_or_never (E : Engine κ) (m : WalletModel κ) (c : COutput) :
    (∀ fuel r, m.resolveChange E fuel c = .ok r →
      walkEndsAt E m.wallet r ∧
      ∀ fuel2, m.wallet.mapWallet.length + 2 ≤ fuel2 → m.resolveChange E fuel2 c = .ok r) ∧
    (m.resolveChange E (m.wallet.mapWallet.length + 2) c = .error WalkError.outOfFuel →
      ∀ fuel, m.resolveChange E fuel c = .error WalkError.outOfFuel) := by
  refine ⟨?_, fun h fuel => resolveChange_never_of_long E m c h fuel⟩
  intro fuel r hres
  refine ⟨walkStep_stop E m r (resolveChange_ok_stop E m fuel c r hres), ?_⟩
  have hok : (Except.ok r : Except WalkError COutput) ≠ .error WalkError.outOfFuel := by
    intro hcon
    cases hcon
  have hlong : m.resolveChange E (m.wallet.mapWallet.length + 2) c = .ok r := by
    by_cases hl : m.resolveChange E (m.wallet.mapWallet.length + 2) c
        = .error WalkError.outOfFuel
    · have := resolveChange_never_of_long E m c hl fuel
      rw [hres] at this
      exact absurd this hok
    · have ha := resolveChange_mono E m (m.wallet.mapWallet.length + 2)
        (max fuel (m.wallet.mapWallet.length + 2)) c _ rfl hl (le_max_right _ _)
      have hb := resolveChange_mono E m fuel (max fuel (m.wallet.mapWallet.length + 2)) c _
        hres hok (le_max_left _ _)
      rw [← ha, hb]
  intro fuel2 hle
  exact resolveChange_mono E m _ fuel2 c _ hlong hok hle

/-- C12 (amended) at the demo chain: the walk from `O3` ends at `O1` with fuel
3, hence with fuel 6 (four recorded transactions plus 2). -/
theorem resolveChange_ends_early_or_never_witness :
    (newModel demoChainWallet).resolveChange (demoEngine true) 6 ⟨demoTx3, 0, 3⟩
      = .ok ⟨demoTx1, 0, 0⟩ :=
  ((resolveChange_ends_early_or_never (demoEngine true) (newModel demoChainWallet)
      ⟨demoTx3, 0, 3⟩).1 3 ⟨demoTx1, 0, 0⟩ rfl).2 6 (by decide)

/-- C12, the claim as stated fails: in a wallet record holding one
transaction whose first input references that same transaction, the walk from
its change output is still running after 1000 passes, never ends, and
`listCoins` never returns. -/
theorem resolveChange_self_reference_counterexample :
    (newModel demoSelfWallet).resolveChange (demoEngine true) 1000 ⟨demoSelfTx, 0, 1⟩
      = .error WalkError.outOfFuel ∧
    (∀ fuel, (newModel demoSelfWallet).resolveChange (demoEngine true) fuel ⟨demoSelfTx, 0, 1⟩
      = .error WalkError.outOfFuel) ∧
    (∀ fuel, (newModel demoSelfWallet).listCoins (demoEngine true) fuel []
      = .error WalkError.outOfFuel) := by
  have hcyc : (newModel demoSelfWallet).walkIter (demoEngine true) 1 ⟨demoSelfTx, 0, 0⟩
      = some ⟨demoSelfTx, 0, 0⟩ := rfl
  have hstart : (newModel demoSelfWallet).walkIter (demoEngine true) 1 ⟨demoSelfTx, 0, 1⟩
      = some ⟨demoSelfTx, 0, 0⟩ := rfl
  have hdiv : ∀ fuel, (newModel demoSelfWallet).resolveChange (demoEngine true) fuel
      ⟨demoSelfTx, 0, 1⟩ = .error WalkError.outOfFuel :=
    resolveChange_diverges_of_reach _ _ 1 _ _ hstart (resolveChange_cycle _ _ 0 _ hcyc)
  refine ⟨hdiv 1000, hdiv, ?_⟩
  intro fuel
  have hin : (newModel demoSelfWallet).listCoinsInput (demoEngine true)
      = [⟨demoSelfTx, 0, 1⟩] := rfl
  rw [WalletModel.listCoins, hin, WalletModel.listCoinsLoop]
  simp only [hdiv fuel]

end HoboNickels
